import Mathlib

/-! pNearKPIECE1: the parallel worker loop and the coordinator

A shallow embedding of `src/src/pNearKPIECE1.cpp`
(`pNearKPIECE1::threadSolve` and `pNearKPIECE1::solve`).

* Motions live in an arena (`St.heap`); a `Motion *` is an index into it, a
  natural number. Thread ids, cells of the discretization and the states of the
  state space (opaque to the planner) are natural numbers as well.
* The worker loop `threadSolve` is a small-step machine: one `PC` per shared
  access of the source, so that the interleavings of the workers are the
  sequences of `step`s. A schedule names, for each step, the worker that moves
  and what the external collaborators (termination condition, discretization,
  random number generator, samplers, motion validator, goal) answer to it.
* `double` values are rationals; `approxdif`, which starts at infinity, is a
  rational or `⊤`. NaN is left out.
* `St.log` records the calls to the collaborators, most recent first.
-/

namespace PNearKPIECE1

/-- KPIECE1's `Motion`: a state and the motion it was expanded from (`none` is
`nullptr`, which is what the constructor leaves in `parent`). -/
structure Motion where
  state : Nat
  parent : Option Nat
deriving DecidableEq, Repr

/-- What `dynamic_cast` finds behind `pdef_->getGoal()` (lines 8-10). -/
inductive GoalKind
  /-- not a `GoalSampleableRegion`: `goal_s == nullptr` -/
  | plain
  /-- a `GoalSampleableRegion` that is not a `NearGoalSpace` -/
  | sampleable
  /-- a `NearGoalSpace`: `goal_s_near != nullptr` -/
  | near
deriving DecidableEq, Repr

/-- What `dynamic_pointer_cast` finds behind `sampler_` (line 14). -/
inductive SamplerKind
  | generic
  /-- a `NearProjectedStateSampler`: `sampler_near` is set -/
  | nearProjected
deriving DecidableEq, Repr

/-- The planner's configuration, read-only while the workers run. -/
structure Cfg where
  /-- the field `threadCount_` -/
  threadCount : Nat
  /-- the goal of `pdef_` -/
  goalKind : GoalKind
  /-- the kind of `sampler_` as the workers find it, that is after lines 124-125 -/
  samplerKind : SamplerKind
  /-- the field `goalBias_` -/
  goalBias : ℚ
  /-- the field `maxDistance_` -/
  maxDistance : ℚ
  /-- the field `minValidPathFraction_` -/
  minValidPathFraction : ℚ
  /-- the field `failedExpansionScoreFactor_` -/
  failedExpansionScoreFactor : ℚ

/-- The answers of the external collaborators to the calls of one step. -/
structure Oracle where
  /-- the termination condition `ptc`, polled at the loop guard -/
  ptc : Bool := false
  /-- the motion `selectMotion` gives to expand from -/
  selected : Nat := 0
  /-- the cell `selectMotion` gives with that motion -/
  cell : Nat := 0
  /-- the value of `rng_.uniform01()` -/
  uniform01 : ℚ := 0
  /-- the value of `goal_s->canSample()` -/
  canSample : Bool := true
  /-- the state a sampler writes into `xstate` -/
  sampled : Nat := 0
  /-- the return value of `si_->checkMotion(existing->state, xstate, fail)` -/
  valid : Bool := true
  /-- the value of `fail.second` after `checkMotion` -/
  fraction : ℚ := 0
  /-- the state in `*fail.first`, that is in `xstate`, after `checkMotion` -/
  checked : Nat := 0
  /-- the return value of `goal->isSatisfied(motion->state, &dist)` -/
  satisfied : Bool := false
  /-- the value of `dist` after `isSatisfied` -/
  dist : ℚ := 0
  /-- the coordinates `computeCoordinates` gives -/
  coord : Nat := 0

/-- Calls to the collaborators and writes to shared data, as they are logged.
`holder` is the owner of `discLock_` at the moment of the call. -/
inductive Event
  | countIteration (t : Nat)
  | selectMotion (t : Nat) (m : Nat) (c : Nat) (holder : Option Nat)
  | sampleTo (t : Nat) (src : Nat)
  | sampleGoal (t : Nat)
  | sampleUniformNearValid (t : Nat) (src : Nat)
  | sampleUniformNear (t : Nat) (src : Nat)
  | checkMotion (t : Nat) (src cand : Nat) (valid : Bool) (fraction : ℚ)
  /-- a `new Motion` by a worker; `verdict` is what `checkMotion` answered in this
  attempt, `none` when it was not called -/
  | newMotion (t : Nat) (m : Nat) (verdict : Option (Bool × ℚ))
  | addMotion (m : Nat) (holder : Option Nat)
  | scoreWrite (t : Nat) (c : Nat) (holder : Option Nat)
  | updateCell (t : Nat) (c : Nat) (holder : Option Nat)
  | commitExact (t : Nat) (m : Nat)
deriving DecidableEq

/-- The outcome of the sampling dispatch of one attempt (lines 30-57). -/
structure Attempt where
  keep : Bool
  xstate : Nat
  verdict : Option (Bool × ℚ)
  calls : List Event

/-- Lines 40-43 and 52-55: `checkMotion` and the partial credit. -/
def validate (cfg : Cfg) (t : Nat) (src : Nat) (o : Oracle) (sampling : Event) : Attempt :=
  let keep := o.valid
  let keep := if !keep && decide (o.fraction > cfg.minValidPathFraction) then true else keep
  { keep := keep, xstate := o.checked, verdict := some (o.valid, o.fraction),
    calls := [Event.checkMotion t src o.sampled o.valid o.fraction, sampling] }

/-- The goal branch is taken (line 33). -/
def goalBranch (cfg : Cfg) (o : Oracle) : Bool :=
  decide (cfg.goalKind ≠ GoalKind.plain) && decide (o.uniform01 < cfg.goalBias) && o.canSample

/-- Lines 30-57: the sampling dispatch. `src` is `existing->state`. -/
def sampleAttempt (cfg : Cfg) (t : Nat) (src : Nat) (o : Oracle) : Attempt :=
  if goalBranch cfg o then
    if cfg.goalKind = GoalKind.near then
      { keep := true, xstate := o.sampled, verdict := none, calls := [Event.sampleTo t src] }
    else
      validate cfg t src o (Event.sampleGoal t)
  else
    if cfg.samplerKind = SamplerKind.nearProjected then
      { keep := true, xstate := o.sampled, verdict := none,
        calls := [Event.sampleUniformNearValid t src] }
    else
      validate cfg t src o (Event.sampleUniformNear t src)

/-- The places of `threadSolve` between two accesses to shared data. -/
inductive PC
  /-- line 18: the loop guard -/
  | guard
  /-- line 20: `discLock_.lock()` -/
  | lockSel
  /-- lines 21-26: `countIteration`, `selectMotion` -/
  | select
  /-- line 27: `discLock_.unlock()` -/
  | unlockSel
  /-- lines 30-68: sample, and on `keep` create the motion -/
  | expand
  /-- line 69: `discLock_.lock()` -/
  | lockAdd
  /-- line 70: `disc_.addMotion` -/
  | add
  /-- lines 72-74: `discLock_.unlock()`, then `if (solv)` -/
  | unlockAdd
  /-- line 76: `sol->lock.lock()` -/
  | lockCommit
  /-- line 77: `sol->approxdif = dist` -/
  | commitDif
  /-- line 78: `sol->solution = motion` -/
  | commitSol
  /-- lines 79-80: `sol->lock.unlock()`, `break` -/
  | unlockCommit
  /-- line 82: the unguarded `dist < sol->approxdif` -/
  | precheck
  /-- line 84: `sol->lock.lock()` -/
  | lockApprox
  /-- lines 85-89: the guarded re-check and write -/
  | recheck
  /-- line 90: `sol->lock.unlock()` -/
  | unlockApprox
  /-- line 95: the load of `ecell->data->score` -/
  | decayLoad
  /-- line 95: the store of the product to `ecell->data->score` -/
  | decayStore
  /-- line 97: `discLock_.lock()` -/
  | lockUpd
  /-- line 98: `disc_.updateCell(ecell)` -/
  | update
  /-- line 99: `discLock_.unlock()` -/
  | unlockUpd
  /-- line 102: out of the loop -/
  | done
deriving DecidableEq, Repr

/-- The local variables of one `threadSolve` call. -/
structure Worker where
  pc : PC := PC.guard
  existing : Nat := 0
  ecell : Nat := 0
  xstate : Nat := 0
  motion : Nat := 0
  dist : ℚ := 0
  solv : Bool := false
  xcoord : Nat := 0
  /-- the score loaded by line 95 -/
  loaded : ℚ := 0

/-- The struct `SolutionInfo` (header, lines 25-31); `lock` holds the owner of the mutex. -/
structure SolutionInfo where
  solution : Option Nat := none
  approxsol : Option Nat := none
  approxdif : WithTop ℚ := ⊤
  lock : Option Nat := none

/-- The discretization `disc_`, as far as the planner touches it: the inserted
motions, the iteration counter and the scores of the cells. Its grid, its heaps
and how it chooses a motion are the collaborator's business. -/
structure Disc where
  motions : List Nat := []
  iteration : Nat := 0
  score : Nat → ℚ := fun _ => 1

/-- The shared memory of a solve call and the workers' locals. -/
structure St where
  heap : List Motion := []
  disc : Disc := {}
  discLock : Option Nat := none
  sol : SolutionInfo := {}
  workers : Nat → Worker := fun _ => {}
  log : List Event := []

/-- Worker `t` continues as `w`. -/
def St.setW (s : St) (t : Nat) (w : Worker) : St :=
  { s with workers := fun u => if u = t then w else s.workers u }

/-- Worker `t` moves to `pc`. -/
def St.goto (s : St) (t : Nat) (pc : PC) : St :=
  s.setW t { s.workers t with pc := pc }

/-- One step of worker `t` of `threadSolve`; `none` when the worker cannot move
(it waits for a mutex, it has left the loop, or the collaborator's answer is not
one it can give). -/
def step (cfg : Cfg) (t : Nat) (o : Oracle) (s : St) : Option St :=
  if cfg.threadCount ≤ t then none else
  let w := s.workers t
  match w.pc with
  | PC.guard => -- line 18
      if s.sol.solution = none ∧ o.ptc = false then some (s.goto t PC.lockSel)
      else some (s.goto t PC.done)
  | PC.lockSel => -- line 20
      if s.discLock = none then some (St.goto { s with discLock := some t } t PC.select) else none
  | PC.select => -- lines 21-26
      if o.selected ∈ s.disc.motions then
        some (St.setW
          { s with
            disc := { s.disc with iteration := s.disc.iteration + 1 },
            log := Event.selectMotion t o.selected o.cell s.discLock
                    :: Event.countIteration t :: s.log }
          t { w with pc := PC.unlockSel, existing := o.selected, ecell := o.cell })
      else none
  | PC.unlockSel => -- line 27
      some (St.goto { s with discLock := none } t PC.expand)
  | PC.expand => -- lines 30-68
      match s.heap[w.existing]? with
      | none => none
      | some e =>
        let a := sampleAttempt cfg t e.state o
        if a.keep then
          some (St.setW
            { s with
              heap := s.heap ++ [{ state := a.xstate, parent := some w.existing }],
              log := Event.newMotion t s.heap.length a.verdict :: (a.calls ++ s.log) }
            t { w with pc := PC.lockAdd, xstate := a.xstate, motion := s.heap.length,
                       dist := o.dist, solv := o.satisfied, xcoord := o.coord })
        else
          some (St.setW { s with log := a.calls ++ s.log } t
                { w with pc := PC.decayLoad, xstate := a.xstate })
  | PC.lockAdd => -- line 69
      if s.discLock = none then some (St.goto { s with discLock := some t } t PC.add) else none
  | PC.add => -- line 70
      some (St.goto
        { s with
          disc := { s.disc with motions := s.disc.motions ++ [w.motion] },
          log := Event.addMotion w.motion s.discLock :: s.log }
        t PC.unlockAdd)
  | PC.unlockAdd => -- lines 72-74
      some (St.goto { s with discLock := none } t (if w.solv then PC.lockCommit else PC.precheck))
  | PC.lockCommit => -- line 76
      if s.sol.lock = none then
        some (St.goto { s with sol := { s.sol with lock := some t } } t PC.commitDif)
      else none
  | PC.commitDif => -- line 77
      some (St.goto { s with sol := { s.sol with approxdif := (w.dist : WithTop ℚ) } }
        t PC.commitSol)
  | PC.commitSol => -- line 78
      some (St.goto
        { s with
          sol := { s.sol with solution := some w.motion },
          log := Event.commitExact t w.motion :: s.log }
        t PC.unlockCommit)
  | PC.unlockCommit => -- lines 79-80
      some (St.goto { s with sol := { s.sol with lock := none } } t PC.done)
  | PC.precheck => -- line 82
      if (w.dist : WithTop ℚ) < s.sol.approxdif then some (s.goto t PC.lockApprox)
      else some (s.goto t PC.lockUpd)
  | PC.lockApprox => -- line 84
      if s.sol.lock = none then
        some (St.goto { s with sol := { s.sol with lock := some t } } t PC.recheck)
      else none
  | PC.recheck => -- lines 85-89
      if (w.dist : WithTop ℚ) < s.sol.approxdif then
        some (St.goto
          { s with sol := { s.sol with approxdif := (w.dist : WithTop ℚ),
                                       approxsol := some w.motion } }
          t PC.unlockApprox)
      else some (s.goto t PC.unlockApprox)
  | PC.unlockApprox => -- line 90
      some (St.goto { s with sol := { s.sol with lock := none } } t PC.lockUpd)
  | PC.decayLoad => -- line 95, the load
      some (s.setW t { w with pc := PC.decayStore, loaded := s.disc.score w.ecell })
  | PC.decayStore => -- line 95, the store
      some (St.goto
        { s with
          disc := { s.disc with
                    score := fun c => if c = w.ecell
                                      then w.loaded * cfg.failedExpansionScoreFactor
                                      else s.disc.score c },
          log := Event.scoreWrite t w.ecell s.discLock :: s.log }
        t PC.lockUpd)
  | PC.lockUpd => -- line 97
      if s.discLock = none then some (St.goto { s with discLock := some t } t PC.update) else none
  | PC.update => -- line 98
      some (St.goto { s with log := Event.updateCell t w.ecell s.discLock :: s.log } t PC.unlockUpd)
  | PC.unlockUpd => -- line 99
      some (St.goto { s with discLock := none } t PC.guard)
  | PC.done => none -- line 102

/-- The workers run as the schedule says; `none` when some step cannot be taken. -/
def run (cfg : Cfg) : List (Nat × Oracle) → St → Option St
  | [], s => some s
  | (t, o) :: rest, s =>
      match step cfg t o s with
      | none => none
      | some s' => run cfg rest s'

/-- The planner before any start state is seeded; `score` is what the
discretization holds as the scores of its cells. -/
def fresh (score : Nat → ℚ) : St :=
  { disc := { score := score } }

/-- Lines 110-116: one root motion per start state, inserted without a lock
(no worker exists yet). -/
def seed : List Nat → St → St
  | [], s => s
  | st :: rest, s =>
      seed rest
        { s with
          heap := s.heap ++ [{ state := st, parent := none }],
          disc := { s.disc with motions := s.disc.motions ++ [s.heap.length] },
          log := Event.addMotion s.heap.length s.discLock :: s.log }

/-- Every worker of the pool has left its loop: the joins of lines 141-145 return. -/
def joined (cfg : Cfg) (s : St) : Prop :=
  ∀ t, t < cfg.threadCount → (s.workers t).pc = PC.done

instance (cfg : Cfg) (s : St) : Decidable (joined cfg s) := by
  unfold joined; infer_instance

/-- Lines 160-165: `mpath`, the motions from the final one up to a root. `fuel`
bounds the number of turns of the `while`; `none` when it runs out or a pointer
dangles. -/
def mpathLoop (heap : List Motion) : Nat → Option Nat → List Nat → Option (List Nat)
  | _, none, mpath => some mpath
  | 0, some _, _ => none
  | fuel + 1, some p, mpath =>
      match heap[p]? with
      | none => none
      | some m => mpathLoop heap fuel m.parent (mpath ++ [p])

/-- Lines 169-170: the states of `mpath[i]` for `i` from `n - 1` down to `0`,
where `n` is the argument; `none` on a dangling pointer. -/
def appendStates (heap : List Motion) (mpath : List Nat) : Nat → Option (List Nat)
  | 0 => some []
  | i + 1 =>
      match mpath[i]? with
      | none => none
      | some p =>
        match heap[p]? with
        | none => none
        | some m =>
          match appendStates heap mpath i with
          | none => none
          | some rest => some (m.state :: rest)

/-- Lines 159-170: the solution path of the motion `final`. -/
def constructPath (heap : List Motion) (fuel : Nat) (final : Nat) : Option (List Nat) :=
  match mpathLoop heap fuel (some final) [] with
  | none => none
  | some mpath => appendStates heap mpath mpath.length

/-- What `solve` returns: `INVALID_START`, or `{solved, approximate}`. -/
inductive PlannerStatus
  | invalidStart
  | flags (solved approximate : Bool)
deriving DecidableEq, Repr

/-- The arguments of `pdef_->addSolutionPath` (line 172). -/
structure SolutionPath where
  states : List Nat
  approximate : Bool
  difference : WithTop ℚ

/-- What a solve call leaves behind. -/
structure Outcome where
  status : PlannerStatus
  /-- the path given to `addSolutionPath`, if it was called -/
  added : Option SolutionPath
  /-- the value of `lastGoalMotion_`, if it was set -/
  lastGoalMotion : Option Nat
  /-- the number of threads created -/
  spawned : Nat
  /-- the calls to the collaborators -/
  log : List Event

/-- Lines 147-180: what `solve` does with the solution record once the workers
are joined. The `while` of line 161 is given as many turns as the arena holds
motions, which is enough whenever the parent links do not loop. -/
def finish (cfg : Cfg) (s : St) : Option Outcome :=
  let approximate := decide (s.sol.solution = none)
  let solution := if s.sol.solution = none then s.sol.approxsol else s.sol.solution
  match solution with
  | none =>
      some { status := PlannerStatus.flags false approximate, added := none,
             lastGoalMotion := none, spawned := cfg.threadCount, log := s.log }
  | some p =>
      match constructPath s.heap s.heap.length p with
      | none => none
      | some path =>
          some { status := PlannerStatus.flags true approximate,
                 added := some { states := path, approximate := approximate,
                                 difference := s.sol.approxdif },
                 lastGoalMotion := some p, spawned := cfg.threadCount, log := s.log }

/-- The state in which the workers start: lines 105-133. -/
def start (score : Nat → ℚ) (starts : List Nat) : St :=
  seed starts (fresh score)

/-- Function `pNearKPIECE1::solve` on a planner that holds no motion yet.
`starts` are the states `pis_.nextStart()` hands out, `sched` is the
interleaving of the workers; `none` when the schedule does not bring every
worker out of its loop, or the walk up the parents does not end. -/
def solve (cfg : Cfg) (score : Nat → ℚ) (starts : List Nat)
    (sched : List (Nat × Oracle)) : Option Outcome :=
  let s0 := start score starts
  if s0.disc.motions.length = 0 then
    some { status := PlannerStatus.invalidStart, added := none, lastGoalMotion := none,
           spawned := 0, log := s0.log }
  else
    match run cfg sched s0 with
    | none => none
    | some s => if joined cfg s then finish cfg s else none

/-! ## Vocabulary of the statements -/

/-- The places at which `existing` is the motion just selected and not yet used. -/
def PC.hasExisting : PC → Bool
  | PC.unlockSel | PC.expand => true
  | _ => false

/-- The places at which `motion` is the motion created in this turn of the loop. -/
def PC.hasMotion : PC → Bool
  | PC.lockAdd | PC.add | PC.unlockAdd | PC.lockCommit | PC.commitDif | PC.commitSol
  | PC.precheck | PC.lockApprox | PC.recheck => true
  | _ => false

/-- The places between `discLock_.lock()` and the matching `discLock_.unlock()`. -/
def PC.inDiscLock : PC → Bool
  | PC.select | PC.unlockSel | PC.add | PC.unlockAdd | PC.update | PC.unlockUpd => true
  | _ => false

/-- The places of the exact commit, lines 76-78, reached only with `solv`. -/
def PC.inCommit : PC → Bool
  | PC.lockCommit | PC.commitDif | PC.commitSol => true
  | _ => false

/-- The places after `selectMotion` at which the turn of the loop has neither
called `updateCell` yet nor written the exact solution. -/
def PC.midIteration : PC → Bool
  | PC.guard | PC.lockSel | PC.select | PC.unlockCommit | PC.unlockUpd | PC.done => false
  | _ => true

/-- A call to `checkMotion`. -/
def Event.isCheckMotion : Event → Bool
  | Event.checkMotion _ _ _ _ _ => true
  | _ => false

/-- A call to one of the sampling collaborators. -/
def Event.isSampling : Event → Bool
  | Event.sampleTo _ _ | Event.sampleGoal _ | Event.sampleUniformNearValid _ _
  | Event.sampleUniformNear _ _ => true
  | _ => false

/-- A `new Motion` of a worker. -/
def Event.isNewMotion : Event → Bool
  | Event.newMotion _ _ _ => true
  | _ => false

/-- A call to `selectMotion` by worker `t`. -/
def Event.isSelectBy (t : Nat) : Event → Bool
  | Event.selectMotion u _ _ _ => decide (u = t)
  | _ => false

/-- A call to `updateCell` by worker `t`. -/
def Event.isUpdateBy (t : Nat) : Event → Bool
  | Event.updateCell u _ _ => decide (u = t)
  | _ => false

/-- A write of `sol->solution` by worker `t`. -/
def Event.isCommitBy (t : Nat) : Event → Bool
  | Event.commitExact u _ => decide (u = t)
  | _ => false

/-- A write of a cell's score. -/
def Event.isScoreWrite : Event → Bool
  | Event.scoreWrite _ _ _ => true
  | _ => false

/-- The branch the dispatch takes has the enhanced capability: the goal branch
with a `NearGoalSpace`, or the other branch with a `NearProjectedStateSampler`. -/
def enhanced (cfg : Cfg) (o : Oracle) : Bool :=
  if goalBranch cfg o then decide (cfg.goalKind = GoalKind.near)
  else decide (cfg.samplerKind = SamplerKind.nearProjected)

/-- The parent links from `p` on: `chain` lists the motion at `p`, then its
parent, and so on up to a motion that has no parent; each entry is a pointer
with the motion it points to. -/
def Ancestry (heap : List Motion) : Option Nat → List (Nat × Motion) → Prop
  | none, [] => True
  | some p, (q, m) :: rest => p = q ∧ heap[p]? = some m ∧ Ancestry heap m.parent rest
  | _, _ => False

/-- In the log, every `new Motion` of a worker comes after the `addMotion` that
inserted its parent. -/
def ParentsInserted (heap : List Motion) : List Event → Prop
  | [] => True
  | Event.newMotion _ p _ :: earlier =>
      (∃ m q h, heap[p]? = some m ∧ m.parent = some q ∧ Event.addMotion q h ∈ earlier)
        ∧ ParentsInserted heap earlier
  | _ :: earlier => ParentsInserted heap earlier

/-- The shape of the arena in a solve call with `n` start states. -/
structure WF (n : Nat) (s : St) : Prop where
  seeds : n ≤ s.heap.length
  roots : ∀ p m, s.heap[p]? = some m → p < n → m.parent = none
  grown : ∀ p m, s.heap[p]? = some m → n ≤ p →
    ∃ q, m.parent = some q ∧ q < p ∧ q ∈ s.disc.motions
  inserted : ∀ q, q ∈ s.disc.motions → q < s.heap.length
  existing : ∀ t, (s.workers t).pc.hasExisting = true →
    (s.workers t).existing ∈ s.disc.motions
  motion : ∀ t, (s.workers t).pc.hasMotion = true → (s.workers t).motion < s.heap.length
  solution : ∀ p, s.sol.solution = some p → p < s.heap.length
  approxsol : ∀ p, s.sol.approxsol = some p → p < s.heap.length

/-- What the log tells about the arena and the discretization. -/
structure Logged (n : Nat) (s : St) : Prop where
  added : ∀ q, q ∈ s.disc.motions → ∃ h, Event.addMotion q h ∈ s.log
  created : ∀ p, n ≤ p → p < s.heap.length → ∃ u v, Event.newMotion u p v ∈ s.log
  parents : ParentsInserted s.heap s.log

/-- The owner of `discLock_` and the calls made under it. -/
structure Locked (s : St) : Prop where
  owner : ∀ t, (s.workers t).pc.inDiscLock = true → s.discLock = some t
  updates : ∀ u c h, Event.updateCell u c h ∈ s.log → h = some u

/-- The bookkeeping of worker `t`: its calls to `selectMotion`, to `updateCell`
and its writes of the exact solution. -/
structure Counted (t : Nat) (s : St) : Prop where
  balance : s.log.countP (Event.isSelectBy t) =
    s.log.countP (Event.isUpdateBy t) + s.log.countP (Event.isCommitBy t)
      + (if (s.workers t).pc.midIteration = true then 1 else 0)
  once : (s.workers t).pc ≠ PC.done →
    s.log.countP (Event.isCommitBy t) = (if (s.workers t).pc = PC.unlockCommit then 1 else 0)
  atMost : s.log.countP (Event.isCommitBy t) ≤ 1

/-- The state while `solve` seeds the start states: only roots, no worker has
moved, the solution record is empty. -/
structure Seeded (s : St) : Prop where
  roots : ∀ (p : Nat) (m : Motion), s.heap[p]? = some m → m.parent = none
  inserted : ∀ q, q ∈ s.disc.motions → q < s.heap.length
  idle : ∀ t, (s.workers t).pc = PC.guard
  solution : s.sol.solution = none
  approxsol : s.sol.approxsol = none
  approxdif : s.sol.approxdif = ⊤
  added : ∀ q, q ∈ s.disc.motions → ∃ h, Event.addMotion q h ∈ s.log
  onlyAdds : ∀ e, e ∈ s.log → ∃ q h, e = Event.addMotion q h

/-- The cell of the latest `selectMotion` of worker `t`. -/
def lastSelected (t : Nat) : List Event → Option Nat
  | [] => none
  | Event.selectMotion u _ c _ :: earlier =>
      if u = t then some c else lastSelected t earlier
  | _ :: earlier => lastSelected t earlier

/-- Every `updateCell` of worker `t` is on the cell of its latest `selectMotion`. -/
def UpdatesSource (t : Nat) : List Event → Prop
  | [] => True
  | Event.updateCell u c _ :: earlier =>
      (u = t → lastSelected t earlier = some c) ∧ UpdatesSource t earlier
  | _ :: earlier => UpdatesSource t earlier

/-- Worker `t` keeps in `ecell` the cell it selected, and updates that cell. -/
structure Sourced (t : Nat) (s : St) : Prop where
  source : (s.workers t).pc.midIteration = true →
    lastSelected t s.log = some (s.workers t).ecell
  updates : UpdatesSource t s.log

/-! ## Concrete runs -/

/-- Two workers, both near-projected capabilities, KPIECE1's default parameters. -/
def cfgNear : Cfg :=
  { threadCount := 2, goalKind := GoalKind.near, samplerKind := SamplerKind.nearProjected,
    goalBias := 1 / 20, maxDistance := 1, minValidPathFraction := 1 / 5,
    failedExpansionScoreFactor := 1 / 2 }

/-- Two workers, a plain sampleable goal and a generic sampler. -/
def cfgGeneric : Cfg :=
  { threadCount := 2, goalKind := GoalKind.sampleable, samplerKind := SamplerKind.generic,
    goalBias := 1 / 20, maxDistance := 1, minValidPathFraction := 1 / 5,
    failedExpansionScoreFactor := 1 / 2 }

/-- Worker `t` takes `n` steps, the collaborators answering `o` to each. -/
def steps (t n : Nat) (o : Oracle) : List (Nat × Oracle) :=
  List.replicate n (t, o)

/-- A single start state, `0`; every cell has score `1`. -/
def start0 : St :=
  start (fun _ => 1) [0]

/-- The collaborators' answers in a turn that reaches the goal with state `x` at
distance `d`: the motion 0 is selected, the sampler gives `x`, the motion to it
is valid, the goal is satisfied. -/
def hit (x : Nat) (d : ℚ) : Oracle :=
  { selected := 0, uniform01 := 1 / 2, sampled := x, checked := x, satisfied := true, dist := d }

/-- The collaborators' answers in a turn that does not reach the goal: state `x`
at distance `d`, the motion to it valid. -/
def miss (x : Nat) (d : ℚ) : Oracle :=
  { selected := 0, uniform01 := 1 / 2, sampled := x, checked := x, satisfied := false, dist := d }

/-- The collaborators' answers in a turn whose motion `checkMotion` rejects from
its very start. -/
def blocked : Oracle :=
  { selected := 0, cell := 0, uniform01 := 1 / 2, sampled := 3, checked := 3, valid := false,
    fraction := 0 }

/-- Both workers pass the loop guard while no solution is recorded, each creates
a motion that satisfies the goal (worker 0 the motion 1 at distance 0, worker 1
the motion 2 at distance 1/2) and inserts it; then worker 0 commits and leaves,
and worker 1 takes `sol->lock`. Worker 1 is at line 77. -/
def raceToDif : List (Nat × Oracle) :=
  steps 0 8 (hit 5 0) ++ steps 1 8 (hit 6 (1 / 2)) ++ steps 0 4 {} ++ steps 1 1 {}

/-- The run `raceToDif`, then line 77 by worker 1: it is at line 78. -/
def raceToSol : List (Nat × Oracle) :=
  raceToDif ++ steps 1 1 {}

/-- The run `raceToSol`, then lines 78-80 by worker 1: both workers are out of
their loops. -/
def raceDone : List (Nat × Oracle) :=
  raceToSol ++ steps 1 2 {}

/-- Worker 0 alone: one turn of the loop that reaches the goal and commits; then
worker 1 sees the solution at its guard and leaves. -/
def soloHit : List (Nat × Oracle) :=
  steps 0 12 (hit 5 0) ++ steps 1 1 {}

/-- Both workers select the motion 0 in cell 0 and have their expansion
rejected; then both load the score of cell 0, and both store their product. -/
def lostDecay : List (Nat × Oracle) :=
  steps 0 5 blocked ++ steps 1 5 blocked
    ++ steps 0 1 {} ++ steps 1 1 {} ++ steps 0 1 {} ++ steps 1 1 {}

/-- Worker 0 makes two turns with validated motions: one that misses the goal at
distance 3 and is recorded as the approximate solution, one that misses at
distance 4; both workers are then stopped by the termination condition. -/
def twoMisses : List (Nat × Oracle) :=
  steps 0 15 (miss 5 3) ++ steps 0 12 (miss 6 4)
    ++ steps 0 1 { ptc := true } ++ steps 1 1 { ptc := true }

/-- Worker 0 creates a validated motion that misses the goal at distance 3 and
takes `sol->lock` to record it: it is at line 85. -/
def toRecheck : List (Nat × Oracle) :=
  steps 0 10 (miss 5 3)

/-- A parent chain of five motions, as an arena. -/
def fiveChain : List Motion :=
  [{ state := 10, parent := none }, { state := 11, parent := some 0 },
   { state := 12, parent := some 1 }, { state := 13, parent := some 2 },
   { state := 14, parent := some 3 }]

/-- The state at the end of the run `sched` from `start0` (`start0` itself when
the schedule cannot be run). -/
def stateAfter (cfg : Cfg) (sched : List (Nat × Oracle)) : St :=
  (run cfg sched start0).getD start0

/-- The state after one more step of worker `t` (`s` itself when the worker
cannot move). -/
def stepFrom (cfg : Cfg) (t : Nat) (o : Oracle) (s : St) : St :=
  (step cfg t o s).getD s

/-! ## Frame lemmas and invariants -/

section frame
variable (s : St) (t u : Nat) (w : Worker) (pc : PC)

@[simp] theorem setW_heap : (s.setW t w).heap = s.heap := rfl
@[simp] theorem setW_disc : (s.setW t w).disc = s.disc := rfl
@[simp] theorem setW_discLock : (s.setW t w).discLock = s.discLock := rfl
@[simp] theorem setW_sol : (s.setW t w).sol = s.sol := rfl
@[simp] theorem setW_log : (s.setW t w).log = s.log := rfl
@[simp] theorem setW_workers : (s.setW t w).workers u = if u = t then w else s.workers u := rfl
@[simp] theorem goto_heap : (s.goto t pc).heap = s.heap := rfl
@[simp] theorem goto_disc : (s.goto t pc).disc = s.disc := rfl
@[simp] theorem goto_discLock : (s.goto t pc).discLock = s.discLock := rfl
@[simp] theorem goto_sol : (s.goto t pc).sol = s.sol := rfl
@[simp] theorem goto_log : (s.goto t pc).log = s.log := rfl
@[simp] theorem goto_workers :
    (s.goto t pc).workers u = if u = t then { s.workers t with pc := pc } else s.workers u := rfl

end frame

/-- An invariant of the steps is an invariant of the runs. -/
theorem run_invariant (cfg : Cfg) (P : St → Prop)
    (hstep : ∀ t o s s', P s → step cfg t o s = some s' → P s') :
    ∀ sched s s', P s → run cfg sched s = some s' → P s' := by
  intro sched
  induction sched with
  | nil => intro s s' hP h; simp [run] at h; exact h ▸ hP
  | cons a rest ih =>
      intro s s' hP h
      obtain ⟨t, o⟩ := a
      simp only [run] at h
      cases hs : step cfg t o s with
      | none => simp [hs] at h
      | some s1 => 
          rw [hs] at h
          exact ih s1 s' (hstep t o s s1 hP hs) h


theorem getElem?_append_one {α : Type} (l : List α) (a : α) (p : Nat) (m : α)
    (h : (l ++ [a])[p]? = some m) : l[p]? = some m ∨ (p = l.length ∧ m = a) := by
  by_cases hp : p < l.length
  · left; rwa [List.getElem?_append_left hp] at h
  · right
    have hp' : l.length ≤ p := Nat.le_of_not_lt hp
    rw [List.getElem?_append_right hp'] at h
    cases hk : p - l.length with
    | zero => rw [hk] at h; simp at h; exact ⟨by omega, h.symm⟩
    | succ k => rw [hk] at h; simp at h

theorem wf_step (cfg : Cfg) (n : Nat) (t : Nat) (o : Oracle) (s s' : St) (hP : WF n s)
    (h : step cfg t o s = some s') : WF n s' := by
  have hlt : ¬ cfg.threadCount ≤ t := by intro hc; simp [step, hc] at h
  obtain ⟨h1, h2, h3, h4, h5, h6, h7, h8⟩ := hP
  have h5t := h5 t
  have h6t := h6 t
  cases hpc : (s.workers t).pc <;> simp only [step, hlt, hpc, if_false] at h <;>
    simp [hpc, PC.hasExisting, PC.hasMotion] at h5t h6t
  case select =>
    split at h
    · simp only [Option.some.injEq] at h; subst h
      refine ⟨h1, h2, h3, h4, ?_, ?_, h7, h8⟩
      · intro u hu
        by_cases hut : u = t
        · subst hut; simp_all
        · simp [hut] at hu ⊢; exact h5 u hu
      · intro u hu
        by_cases hut : u = t
        · subst hut; simp [PC.hasMotion] at hu
        · simp [hut] at hu ⊢; exact h6 u hu
    · simp at h
  case expand =>
    split at h
    · cases h
    · rename_i e he
      split at h <;> cases h
      · refine ⟨?_, ?_, ?_, ?_, ?_, ?_, ?_, ?_⟩
        · simp only [setW_heap, List.length_append]; omega
        · intro p m hm hp
          rcases getElem?_append_one _ _ _ _ hm with h0 | ⟨h0, _⟩
          · exact h2 p m h0 hp
          · omega
        · intro p m hm hp
          rcases getElem?_append_one _ _ _ _ hm with h0 | ⟨h0, h0'⟩
          · exact h3 p m h0 hp
          · subst h0'
            have hlt' : ((s.workers t).existing : Nat) < s.heap.length := h4 _ h5t
            exact ⟨(s.workers t).existing, rfl, by omega, h5t⟩
        · intro q hq
          have : (q : Nat) < s.heap.length := h4 q hq
          simp only [setW_heap, List.length_append, List.length_singleton]; omega
        · intro u hu
          by_cases hut : u = t
          · subst hut; simp [PC.hasExisting] at hu
          · simp [hut] at hu ⊢; exact h5 u hu
        · intro u hu
          by_cases hut : u = t
          · subst hut; simp
          · simp [hut] at hu ⊢; have : ((s.workers u).motion : Nat) < s.heap.length := h6 u hu; omega
        · intro p hp
          have : (p : Nat) < s.heap.length := h7 p hp
          simp only [setW_heap, List.length_append, List.length_singleton]; omega
        · intro p hp
          have : (p : Nat) < s.heap.length := h8 p hp
          simp only [setW_heap, List.length_append, List.length_singleton]; omega
      · refine ⟨h1, h2, h3, h4, ?_, ?_, h7, h8⟩
        · intro u hu
          by_cases hut : u = t
          · subst hut; simp [PC.hasExisting] at hu
          · simp [hut] at hu ⊢; exact h5 u hu
        · intro u hu
          by_cases hut : u = t
          · subst hut; simp [PC.hasMotion] at hu
          · simp [hut] at hu ⊢; exact h6 u hu
  case add =>
    cases h
    refine ⟨h1, h2, ?_, ?_, ?_, ?_, h7, h8⟩
    · intro p m hm hp
      obtain ⟨q, hq1, hq2, hq3⟩ := h3 p m hm hp
      exact ⟨q, hq1, hq2, List.mem_append_left _ hq3⟩
    · intro q hq
      simp only [goto_disc, List.mem_append, List.mem_singleton] at hq
      rcases hq with hq | hq
      · exact h4 q hq
      · subst hq; exact h6t
    · intro u hu
      by_cases hut : u = t
      · subst hut; simp [PC.hasExisting] at hu
      · simp [hut] at hu ⊢; exact Or.inl (h5 u hu)
    · intro u hu
      by_cases hut : u = t
      · subst hut; simpa using h6t
      · simp [hut] at hu ⊢; exact h6 u hu
  case commitSol =>
    cases h
    refine ⟨h1, h2, h3, h4, ?_, ?_, ?_, h8⟩
    · intro u hu
      by_cases hut : u = t
      · subst hut; simp [PC.hasExisting] at hu
      · simp [hut] at hu ⊢; exact h5 u hu
    · intro u hu
      by_cases hut : u = t
      · subst hut; simp [PC.hasMotion] at hu
      · simp [hut] at hu ⊢; exact h6 u hu
    · intro p hp
      simp only [goto_sol, Option.some.injEq] at hp
      subst hp; exact h6t
  case recheck =>
    split at h <;> cases h
    · refine ⟨h1, h2, h3, h4, ?_, ?_, h7, ?_⟩
      · intro u hu
        by_cases hut : u = t
        · subst hut; simp [PC.hasExisting] at hu
        · simp [hut] at hu ⊢; exact h5 u hu
      · intro u hu
        by_cases hut : u = t
        · subst hut; simp [PC.hasMotion] at hu
        · simp [hut] at hu ⊢; exact h6 u hu
      · intro p hp
        simp only [goto_sol, Option.some.injEq] at hp
        subst hp; exact h6t
    · refine ⟨h1, h2, h3, h4, ?_, ?_, h7, h8⟩
      · intro u hu
        by_cases hut : u = t
        · subst hut; simp [PC.hasExisting] at hu
        · simp [hut] at hu ⊢; exact h5 u hu
      · intro u hu
        by_cases hut : u = t
        · subst hut; simp [PC.hasMotion] at hu
        · simp [hut] at hu ⊢; exact h6 u hu
  all_goals
    first
    | cases h
    | (split at h <;> cases h)
  all_goals
    refine ⟨h1, h2, h3, h4, ?_, ?_, h7, h8⟩
  all_goals
    intro u hu
    by_cases hut : u = t
    · subst hut
      simp only [goto_workers, setW_workers, if_true] at hu ⊢
      first
      | (simp [PC.hasMotion, PC.hasExisting] at hu; done)
      | exact h5t
      | exact h6t
      | (split at hu <;> simp [PC.hasMotion, PC.hasExisting] at hu)
    · simp [hut] at hu ⊢
      first | exact h5 u hu | exact h6 u hu

theorem seeded_fresh (score : Nat → ℚ) : Seeded (fresh score) := by
  refine ⟨?_, ?_, ?_, rfl, rfl, rfl, ?_, ?_⟩ <;> simp [fresh]

theorem seeded_seed (l : List Nat) : ∀ s, Seeded s →
    Seeded (seed l s) ∧ (seed l s).heap.length = s.heap.length + l.length := by
  induction l with
  | nil => intro s hs; exact ⟨hs, rfl⟩
  | cons st rest ih =>
      intro s hs
      obtain ⟨h1, h2, h3, h4, h5, h6, h7, h8⟩ := hs
      have key := ih { s with
          heap := s.heap ++ [{ state := st, parent := none }],
          disc := { s.disc with motions := s.disc.motions ++ [s.heap.length] },
          log := Event.addMotion s.heap.length s.discLock :: s.log } ?_
      · refine ⟨key.1, ?_⟩
        simp only [seed]
        rw [key.2]
        simp only [List.length_append, List.length_singleton, List.length_cons, List.length_nil]
        omega
      · refine ⟨?_, ?_, h3, h4, h5, h6, ?_, ?_⟩
        · intro p m hm
          rcases getElem?_append_one _ _ _ _ hm with h0 | ⟨_, h0⟩
          · exact h1 p m h0
          · subst h0; rfl
        · intro q hq
          simp only [List.mem_append, List.mem_singleton] at hq
          simp only [List.length_append, List.length_singleton]
          rcases hq with hq | hq
          · have := h2 q hq; omega
          · omega
        · intro q hq
          simp only [List.mem_append, List.mem_singleton] at hq
          rcases hq with hq | hq
          · obtain ⟨h, hh⟩ := h7 q hq
            exact ⟨h, List.mem_cons_of_mem _ hh⟩
          · subst hq; exact ⟨s.discLock, List.mem_cons_self _ _⟩
        · intro e he
          simp only [List.mem_cons] at he
          rcases he with he | he
          · exact ⟨_, _, he⟩
          · exact h8 e he

theorem seeded_start (score : Nat → ℚ) (starts : List Nat) :
    Seeded (start score starts) ∧ (start score starts).heap.length = starts.length := by
  have := seeded_seed starts (fresh score) (seeded_fresh score)
  refine ⟨this.1, ?_⟩
  rw [start, this.2]
  simp [fresh]

theorem wf_start (score : Nat → ℚ) (starts : List Nat) :
    WF starts.length (start score starts) := by
  obtain ⟨⟨h1, h2, h3, h4, h5, h6, h7, h8⟩, hlen⟩ := seeded_start score starts
  refine ⟨by omega, fun p m hm _ => h1 p m hm, ?_, h2, ?_, ?_, ?_, ?_⟩
  · intro p m hm hp
    have : p < (start score starts).heap.length := by
      rcases Nat.lt_or_ge p (start score starts).heap.length with h | h
      · exact h
      · rw [List.getElem?_eq_none h] at hm; cases hm
    omega
  · intro t ht; rw [h3 t] at ht; cases ht
  · intro t ht; rw [h3 t] at ht; cases ht
  · intro p hp; rw [h4] at hp; cases hp
  · intro p hp; rw [h5] at hp; cases hp

theorem wf_run (cfg : Cfg) (score : Nat → ℚ) (starts : List Nat) (sched : List (Nat × Oracle))
    (s : St) (h : run cfg sched (start score starts) = some s) : WF starts.length s :=
  run_invariant cfg (WF starts.length) (fun t o s s' hP hs => wf_step cfg _ t o s s' hP hs)
    sched _ s (wf_start score starts) h

theorem calls_not_update (cfg : Cfg) (t src : Nat) (o : Oracle) (u c : Nat) (h : Option Nat) :
    Event.updateCell u c h ∉ (sampleAttempt cfg t src o).calls := by
  unfold sampleAttempt validate
  split <;> split <;> simp

theorem owner_step (cfg : Cfg) (t : Nat) (o : Oracle) (s s' : St)
    (h1 : ∀ t, (s.workers t).pc.inDiscLock = true → s.discLock = some t)
    (h : step cfg t o s = some s') :
    ∀ t, (s'.workers t).pc.inDiscLock = true → s'.discLock = some t := by
  have hlt : ¬ cfg.threadCount ≤ t := by intro hc; simp [step, hc] at h
  have h1t := h1 t
  cases hpc : (s.workers t).pc <;> simp only [step, hlt, hpc, if_false] at h <;>
    simp [hpc, PC.inDiscLock] at h1t
  case expand =>
    split at h
    · cases h
    · split at h <;> cases h
      · intro u hu
        by_cases hut : u = t
        · subst hut; simp [PC.inDiscLock] at hu
        · simp [hut] at hu ⊢; exact h1 u hu
      · intro u hu
        by_cases hut : u = t
        · subst hut; simp [PC.inDiscLock] at hu
        · simp [hut] at hu ⊢; exact h1 u hu
  all_goals
    first
    | cases h
    | (split at h <;> cases h)
  all_goals
    intro u hu
    by_cases hut : u = t
    · subst hut
      simp only [goto_workers, setW_workers, if_true, goto_discLock, setW_discLock] at hu ⊢ <;>
      first
      | (simp [PC.inDiscLock] at hu; done)
      | exact h1t
      | (split at hu <;> simp [PC.inDiscLock] at hu)
    · simp only [goto_workers, setW_workers, hut, if_false, goto_discLock, setW_discLock] at hu ⊢
      have hown := h1 u hu
      first
      | exact hown
      | (rename_i hfree; rw [hfree] at hown; cases hown)
      | (rw [h1t] at hown; cases hown; exact absurd rfl hut)

theorem locked_step (cfg : Cfg) (t : Nat) (o : Oracle) (s s' : St) (hP : Locked s)
    (h : step cfg t o s = some s') : Locked s' := by
  refine ⟨owner_step cfg t o s s' hP.owner h, ?_⟩
  have hlt : ¬ cfg.threadCount ≤ t := by intro hc; simp [step, hc] at h
  obtain ⟨h1, h2⟩ := hP
  have h1t := h1 t
  cases hpc : (s.workers t).pc <;> simp only [step, hlt, hpc, if_false] at h <;>
    simp [hpc, PC.inDiscLock] at h1t
  case expand =>
    split at h
    · cases h
    · split at h <;> cases h
      · intro u c hh hmem
        simp only [setW_log, List.mem_cons, List.mem_append, reduceCtorEq, false_or] at hmem
        rcases hmem with hmem | hmem
        · exact absurd hmem (calls_not_update _ _ _ _ _ _ _)
        · exact h2 u c hh hmem
      · intro u c hh hmem
        simp only [setW_log, List.mem_cons, List.mem_append, reduceCtorEq, false_or] at hmem
        rcases hmem with hmem | hmem
        · exact absurd hmem (calls_not_update _ _ _ _ _ _ _)
        · exact h2 u c hh hmem
  all_goals
    first
    | cases h
    | (split at h <;> cases h)
  all_goals
    intro u c hh hmem
    simp only [goto_log, setW_log, List.mem_cons, reduceCtorEq, false_or,
      Event.updateCell.injEq] at hmem
    first
    | exact h2 u c hh hmem
    | (rcases hmem with ⟨rfl, rfl, rfl⟩ | hmem
       · exact h1t
       · exact h2 u c hh hmem)

theorem locked_start (score : Nat → ℚ) (starts : List Nat) : Locked (start score starts) := by
  obtain ⟨⟨_, _, h3, _, _, _, _, h8⟩, _⟩ := seeded_start score starts
  refine ⟨?_, ?_⟩
  · intro t ht; rw [h3 t] at ht; cases ht
  · intro u c h hmem
    obtain ⟨q, h', he⟩ := h8 _ hmem
    cases he

theorem locked_run (cfg : Cfg) (score : Nat → ℚ) (starts : List Nat) (sched : List (Nat × Oracle))
    (s : St) (h : run cfg sched (start score starts) = some s) : Locked s :=
  run_invariant cfg Locked (fun t o s s' hP hs => locked_step cfg t o s s' hP hs)
    sched _ s (locked_start score starts) h

theorem calls_countP_select (cfg : Cfg) (t src : Nat) (o : Oracle) (k : Nat) :
    (sampleAttempt cfg t src o).calls.countP (Event.isSelectBy k) = 0 := by
  unfold sampleAttempt validate
  split <;> split <;> simp [List.countP_cons, Event.isSelectBy]

theorem calls_countP_update (cfg : Cfg) (t src : Nat) (o : Oracle) (k : Nat) :
    (sampleAttempt cfg t src o).calls.countP (Event.isUpdateBy k) = 0 := by
  unfold sampleAttempt validate
  split <;> split <;> simp [List.countP_cons, Event.isUpdateBy]

theorem calls_countP_commit (cfg : Cfg) (t src : Nat) (o : Oracle) (k : Nat) :
    (sampleAttempt cfg t src o).calls.countP (Event.isCommitBy k) = 0 := by
  unfold sampleAttempt validate
  split <;> split <;> simp [List.countP_cons, Event.isCommitBy]

theorem counted_step (cfg : Cfg) (k t : Nat) (o : Oracle) (s s' : St) (hP : Counted k s)
    (h : step cfg t o s = some s') : Counted k s' := by
  have hlt : ¬ cfg.threadCount ≤ t := by intro hc; simp [step, hc] at h
  obtain ⟨hb, ho, ha⟩ := hP
  cases hpc : (s.workers t).pc <;> simp only [step, hlt, hpc, if_false] at h
  all_goals
    first
    | cases h
    | (split at h <;> cases h)
    | (split at h <;> first | cases h | (split at h <;> cases h))
  all_goals
    try (cases hs : (s.workers t).solv <;> simp only [hs, Bool.false_eq_true, if_false, if_true])
  all_goals
    by_cases hkt : k = t
    · subst hkt
      simp [-List.countP_eq_zero, hpc, PC.midIteration] at hb ho
      refine ⟨?_, ?_, ?_⟩ <;>
        simp [-List.countP_eq_zero, List.countP_cons, List.countP_append, calls_countP_select,
          calls_countP_update, calls_countP_commit, Event.isSelectBy, Event.isUpdateBy,
          Event.isCommitBy, PC.midIteration] <;>
        omega
    · have hkt' : ¬ t = k := fun h => hkt h.symm
      refine ⟨?_, ?_, ?_⟩ <;>
        simp [-List.countP_eq_zero, List.countP_cons, List.countP_append, calls_countP_select,
          calls_countP_update, calls_countP_commit, Event.isSelectBy, Event.isUpdateBy,
          Event.isCommitBy, hkt, hkt'] <;> assumption

theorem counted_start (score : Nat → ℚ) (starts : List Nat) (k : Nat) :
    Counted k (start score starts) := by
  obtain ⟨⟨_, _, h3, _, _, _, _, h8⟩, _⟩ := seeded_start score starts
  have hz : ∀ p : Event → Bool, (∀ q h, p (Event.addMotion q h) = false) →
      (start score starts).log.countP p = 0 := by
    intro p hp
    rw [List.countP_eq_zero]
    intro e he
    obtain ⟨q, h', rfl⟩ := h8 e he
    simp [hp]
  have h1 := hz (Event.isSelectBy k) (fun _ _ => rfl)
  have h2 := hz (Event.isUpdateBy k) (fun _ _ => rfl)
  have h3' := hz (Event.isCommitBy k) (fun _ _ => rfl)
  refine ⟨?_, ?_, ?_⟩
  · rw [h1, h2, h3', h3 k]; rfl
  · intro _; rw [h3', h3 k]; rfl
  · rw [h3']; exact Nat.zero_le _

theorem counted_run (cfg : Cfg) (score : Nat → ℚ) (starts : List Nat)
    (sched : List (Nat × Oracle)) (s : St) (k : Nat)
    (h : run cfg sched (start score starts) = some s) : Counted k s :=
  run_invariant cfg (Counted k) (fun t o s s' hP hs => counted_step cfg k t o s s' hP hs)
    sched _ s (counted_start score starts k) h

theorem attempt_enhanced (cfg : Cfg) (t src : Nat) (o : Oracle) (h : enhanced cfg o = true) :
    (sampleAttempt cfg t src o).keep = true ∧ (sampleAttempt cfg t src o).verdict = none ∧
      (sampleAttempt cfg t src o).calls.countP Event.isCheckMotion = 0 := by
  unfold enhanced at h
  unfold sampleAttempt
  split at h <;> rename_i hg <;> simp only [hg, if_true, if_false, Bool.false_eq_true] <;>
    simp only [decide_eq_true_eq] at h <;> simp [h, List.countP_cons, Event.isCheckMotion]

theorem attempt_validated (cfg : Cfg) (t src : Nat) (o : Oracle) (h : enhanced cfg o = false) :
    ((sampleAttempt cfg t src o).keep = true ↔
        (o.valid = true ∨ (o.valid = false ∧ cfg.minValidPathFraction < o.fraction))) ∧
      (sampleAttempt cfg t src o).verdict = some (o.valid, o.fraction) ∧
      Event.checkMotion t src o.sampled o.valid o.fraction ∈ (sampleAttempt cfg t src o).calls := by
  unfold enhanced at h
  unfold sampleAttempt
  split at h <;> rename_i hg <;> simp only [hg, if_true, if_false, Bool.false_eq_true] <;>
    simp only [decide_eq_false_iff_not] at h <;> simp only [h, if_false] <;>
    (unfold validate; cases o.valid <;> simp)

theorem calls_not_newMotion (cfg : Cfg) (t src : Nat) (o : Oracle) (u m : Nat)
    (v : Option (Bool × ℚ)) : Event.newMotion u m v ∉ (sampleAttempt cfg t src o).calls := by
  unfold sampleAttempt validate
  split <;> split <;> simp

theorem step_log (cfg : Cfg) (t : Nat) (o : Oracle) (s s' : St)
    (h : step cfg t o s = some s') :
    ∃ evs, s'.log = evs ++ s.log ∧ ∀ e, e ∈ evs →
      (e.isCheckMotion = false ∧ e.isNewMotion = false) ∨
      (∃ src, e ∈ (sampleAttempt cfg t src o).calls) ∨
      (∃ src, (sampleAttempt cfg t src o).keep = true ∧
        e = Event.newMotion t s.heap.length (sampleAttempt cfg t src o).verdict) := by
  have hlt : ¬ cfg.threadCount ≤ t := by intro hc; simp [step, hc] at h
  cases hpc : (s.workers t).pc <;> simp only [step, hlt, hpc, if_false] at h
  case expand =>
    split at h
    · cases h
    · rename_i e he
      split at h <;> cases h
      · rename_i hk
        refine ⟨Event.newMotion t s.heap.length (sampleAttempt cfg t e.state o).verdict ::
          (sampleAttempt cfg t e.state o).calls, by simp, ?_⟩
        intro x hx
        simp only [List.mem_cons] at hx
        rcases hx with hx | hx
        · exact Or.inr (Or.inr ⟨e.state, hk, hx⟩)
        · exact Or.inr (Or.inl ⟨e.state, hx⟩)
      · exact ⟨(sampleAttempt cfg t e.state o).calls, by simp,
          fun x hx => Or.inr (Or.inl ⟨e.state, hx⟩)⟩
  all_goals
    first
    | cases h
    | (split at h <;> cases h)
  all_goals
    first
    | exact ⟨[], rfl, fun _ hx => absurd hx (List.not_mem_nil _)⟩
    | (refine ⟨[_], rfl, ?_⟩; simp [Event.isCheckMotion, Event.isNewMotion])
    | (refine ⟨[_, _], rfl, ?_⟩; simp [Event.isCheckMotion, Event.isNewMotion])

theorem enhanced_of_caps (cfg : Cfg) (o : Oracle) (hg : cfg.goalKind = GoalKind.near)
    (hs : cfg.samplerKind = SamplerKind.nearProjected) : enhanced cfg o = true := by
  unfold enhanced; split <;> simp [hg, hs]

theorem validated_of_caps (cfg : Cfg) (o : Oracle) (hg : cfg.goalKind ≠ GoalKind.near)
    (hs : cfg.samplerKind = SamplerKind.generic) : enhanced cfg o = false := by
  unfold enhanced; split <;> simp [hg, hs]

theorem nocheck_run (cfg : Cfg) (score : Nat → ℚ) (starts : List Nat)
    (sched : List (Nat × Oracle)) (s : St) (hg : cfg.goalKind = GoalKind.near)
    (hs : cfg.samplerKind = SamplerKind.nearProjected)
    (h : run cfg sched (start score starts) = some s) :
    s.log.countP Event.isCheckMotion = 0 := by
  refine run_invariant cfg (fun s => s.log.countP Event.isCheckMotion = 0) ?_
    sched _ s ?_ h
  · intro t o s s' hP hstep
    obtain ⟨evs, hlog, hev⟩ := step_log cfg t o s s' hstep
    rw [hlog, List.countP_append, hP, Nat.add_zero, List.countP_eq_zero]
    intro e he
    rcases hev e he with h1 | ⟨src, h1⟩ | ⟨src, _, h1⟩
    · simp [h1.1]
    · have := (attempt_enhanced cfg t src o (enhanced_of_caps cfg o hg hs)).2.2
      rw [List.countP_eq_zero] at this
      exact this e h1
    · subst h1; simp [Event.isCheckMotion]
  · obtain ⟨⟨_, _, _, _, _, _, _, h8⟩, _⟩ := seeded_start score starts
    rw [List.countP_eq_zero]
    intro e he
    obtain ⟨q, h', rfl⟩ := h8 e he
    simp [Event.isCheckMotion]

theorem verdicts_run (cfg : Cfg) (score : Nat → ℚ) (starts : List Nat)
    (sched : List (Nat × Oracle)) (s : St) (hg : cfg.goalKind ≠ GoalKind.near)
    (hs : cfg.samplerKind = SamplerKind.generic)
    (h : run cfg sched (start score starts) = some s) :
    ∀ u m v, Event.newMotion u m v ∈ s.log →
      ∃ valid fraction, v = some (valid, fraction) ∧
        (valid = true ∨ cfg.minValidPathFraction < fraction) := by
  refine run_invariant cfg (fun s => ∀ u m v, Event.newMotion u m v ∈ s.log →
      ∃ valid fraction, v = some (valid, fraction) ∧
        (valid = true ∨ cfg.minValidPathFraction < fraction)) ?_ sched _ s ?_ h
  · intro t o s s' hP hstep u m v hmem
    obtain ⟨evs, hlog, hev⟩ := step_log cfg t o s s' hstep
    rw [hlog, List.mem_append] at hmem
    rcases hmem with hmem | hmem
    · have hval := fun src => attempt_validated cfg t src o (validated_of_caps cfg o hg hs)
      rcases hev _ hmem with h1 | ⟨src, h1⟩ | ⟨src, hk, h1⟩
      · simp [Event.isNewMotion] at h1
      · exact absurd h1 (calls_not_newMotion _ _ _ _ _ _ _)
      · simp only [Event.newMotion.injEq] at h1
        obtain ⟨_, _, hv⟩ := h1
        refine ⟨o.valid, o.fraction, by rw [hv, (hval src).2.1], ?_⟩
        rcases (hval src).1.mp hk with hk' | hk'
        · exact Or.inl hk'
        · exact Or.inr hk'.2
    · exact hP u m v hmem
  · obtain ⟨⟨_, _, _, _, _, _, _, h8⟩, _⟩ := seeded_start score starts
    intro u m v hmem
    obtain ⟨q, h', he⟩ := h8 _ hmem
    cases he

theorem getElem?_append_keep {α : Type} (l : List α) (a : α) (p : Nat) (m : α)
    (h : l[p]? = some m) : (l ++ [a])[p]? = some m := by
  have hp : p < l.length := by
    rcases Nat.lt_or_ge p l.length with hp | hp
    · exact hp
    · rw [List.getElem?_eq_none hp] at h; cases h
  rw [List.getElem?_append_left hp]; exact h

theorem parentsInserted_heap (heap : List Motion) (x : Motion) :
    ∀ l, ParentsInserted heap l → ParentsInserted (heap ++ [x]) l := by
  intro l
  induction l with
  | nil => intro _; trivial
  | cons e rest ih =>
      intro h
      cases e <;> simp only [ParentsInserted] at h ⊢ <;> try exact ih h
      obtain ⟨⟨m, q, hh, h1, h2, h3⟩, h4⟩ := h
      exact ⟨⟨m, q, hh, getElem?_append_keep _ _ _ _ h1, h2, h3⟩, ih h4⟩

theorem parentsInserted_append (heap : List Motion) (l : List Event) :
    ∀ evs : List Event, (∀ e, e ∈ evs → e.isNewMotion = false) →
      ParentsInserted heap l → ParentsInserted heap (evs ++ l) := by
  intro evs
  induction evs with
  | nil => intro _ h; exact h
  | cons e rest ih =>
      intro hev h
      have hrest := ih (fun x hx => hev x (List.mem_cons_of_mem _ hx)) h
      have he := hev e (List.mem_cons_self _ _)
      cases e <;> simp only [Event.isNewMotion, reduceCtorEq] at he <;>
        simp only [List.cons_append, ParentsInserted] <;> exact hrest

theorem parentsInserted_split (heap : List Motion) (u p : Nat) (v : Option (Bool × ℚ))
    (post : List Event) : ∀ pre : List Event,
      ParentsInserted heap (pre ++ Event.newMotion u p v :: post) →
      ∃ m q h, heap[p]? = some m ∧ m.parent = some q ∧ Event.addMotion q h ∈ post := by
  intro pre
  induction pre with
  | nil => intro h; simp only [List.nil_append, ParentsInserted] at h; exact h.1
  | cons e rest ih =>
      intro h
      cases e <;> simp only [List.cons_append, ParentsInserted] at h <;>
        first | exact ih h | exact ih h.2

theorem step_effect (cfg : Cfg) (t : Nat) (o : Oracle) (s s' : St)
    (h : step cfg t o s = some s') :
    (s'.heap = s.heap ∧ s'.disc.motions = s.disc.motions ∧
      ∃ evs, s'.log = evs ++ s.log ∧ ∀ e, e ∈ evs → e.isNewMotion = false) ∨
    ((s.workers t).pc = PC.expand ∧ s'.disc.motions = s.disc.motions ∧
      ∃ x v calls, s'.heap = s.heap ++ [{ state := x, parent := some (s.workers t).existing }] ∧
        s'.log = Event.newMotion t s.heap.length v :: (calls ++ s.log) ∧
        ∀ e, e ∈ calls → e.isNewMotion = false) ∨
    ((s.workers t).pc = PC.add ∧ s'.heap = s.heap ∧
      s'.disc.motions = s.disc.motions ++ [(s.workers t).motion] ∧
      s'.log = Event.addMotion (s.workers t).motion s.discLock :: s.log) := by
  have hlt : ¬ cfg.threadCount ≤ t := by intro hc; simp [step, hc] at h
  have hcalls : ∀ src e, e ∈ (sampleAttempt cfg t src o).calls → e.isNewMotion = false := by
    intro src e he
    cases e <;> first | rfl | exact absurd he (calls_not_newMotion _ _ _ _ _ _ _)
  cases hpc : (s.workers t).pc <;> simp only [step, hlt, hpc, if_false] at h
  case expand =>
    split at h
    · cases h
    · rename_i e he
      split at h <;> cases h
      · exact Or.inr (Or.inl ⟨rfl, rfl, _, _, _, rfl, rfl, hcalls e.state⟩)
      · exact Or.inl ⟨rfl, rfl, _, rfl, hcalls e.state⟩
  case add =>
    cases h
    exact Or.inr (Or.inr ⟨rfl, rfl, rfl, rfl⟩)
  all_goals
    first
    | cases h
    | (split at h <;> cases h)
  all_goals
    first
    | exact Or.inl ⟨rfl, rfl, [], rfl, fun _ hx => absurd hx (List.not_mem_nil _)⟩
    | (refine Or.inl ⟨rfl, rfl, [_], rfl, ?_⟩; simp [Event.isNewMotion])
    | (refine Or.inl ⟨rfl, rfl, [_, _], rfl, ?_⟩; simp [Event.isNewMotion])

theorem logged_step (cfg : Cfg) (n t : Nat) (o : Oracle) (s s' : St) (hW : WF n s)
    (hL : Logged n s) (h : step cfg t o s = some s') : Logged n s' := by
  obtain ⟨ha, hc, hp⟩ := hL
  rcases step_effect cfg t o s s' h with ⟨hh, hm, evs, hl, hev⟩ |
      ⟨hpc, hm, x, v, calls, hh, hl, hev⟩ | ⟨hpc, hh, hm, hl⟩
  · refine ⟨?_, ?_, ?_⟩
    · intro q hq
      rw [hm] at hq
      obtain ⟨lk, hlk⟩ := ha q hq
      exact ⟨lk, by rw [hl]; exact List.mem_append_right _ hlk⟩
    · intro p hp1 hp2
      rw [hh] at hp2
      obtain ⟨u, v, huv⟩ := hc p hp1 hp2
      exact ⟨u, v, by rw [hl]; exact List.mem_append_right _ huv⟩
    · rw [hh, hl]; exact parentsInserted_append _ _ _ hev hp
  · have hex : (s.workers t).existing ∈ s.disc.motions :=
      hW.existing t (by rw [hpc]; rfl)
    refine ⟨?_, ?_, ?_⟩
    · intro q hq
      rw [hm] at hq
      obtain ⟨lk, hlk⟩ := ha q hq
      exact ⟨lk, by rw [hl]; exact List.mem_cons_of_mem _ (List.mem_append_right _ hlk)⟩
    · intro p hp1 hp2
      rw [hh, List.length_append, List.length_singleton] at hp2
      rcases Nat.lt_or_ge p s.heap.length with hlt | hge
      · obtain ⟨u, w, huw⟩ := hc p hp1 hlt
        exact ⟨u, w, by rw [hl]; exact List.mem_cons_of_mem _ (List.mem_append_right _ huw)⟩
      · have hpe : p = s.heap.length := by omega
        subst hpe
        exact ⟨t, v, by rw [hl]; exact List.mem_cons_self _ _⟩
    · rw [hh, hl]
      simp only [ParentsInserted]
      refine ⟨?_, parentsInserted_append _ _ _ hev (parentsInserted_heap _ _ _ hp)⟩
      obtain ⟨lk, hlk⟩ := ha _ hex
      refine ⟨{ state := x, parent := some (s.workers t).existing }, (s.workers t).existing, lk,
        ?_, rfl, List.mem_append_right _ hlk⟩
      simp
  · refine ⟨?_, ?_, ?_⟩
    · intro q hq
      rw [hm, List.mem_append, List.mem_singleton] at hq
      rcases hq with hq | hq
      · obtain ⟨lk, hlk⟩ := ha q hq
        exact ⟨lk, by rw [hl]; exact List.mem_cons_of_mem _ hlk⟩
      · subst hq
        exact ⟨s.discLock, by rw [hl]; exact List.mem_cons_self _ _⟩
    · intro p hp1 hp2
      rw [hh] at hp2
      obtain ⟨u, v, huv⟩ := hc p hp1 hp2
      exact ⟨u, v, by rw [hl]; exact List.mem_cons_of_mem _ huv⟩
    · rw [hh, hl]; simp only [ParentsInserted]; exact hp

theorem logged_start (score : Nat → ℚ) (starts : List Nat) :
    Logged starts.length (start score starts) := by
  obtain ⟨⟨_, _, _, _, _, _, h7, h8⟩, hlen⟩ := seeded_start score starts
  refine ⟨h7, ?_, ?_⟩
  · intro p hp1 hp2; omega
  · have : ∀ l : List Event, (∀ e, e ∈ l → ∃ q h, e = Event.addMotion q h) →
        ParentsInserted (start score starts).heap l := by
      intro l
      induction l with
      | nil => intro _; trivial
      | cons e rest ih =>
          intro hl
          obtain ⟨q, lk, rfl⟩ := hl e (List.mem_cons_self _ _)
          simp only [ParentsInserted]
          exact ih (fun x hx => hl x (List.mem_cons_of_mem _ hx))
    exact this _ h8

theorem logged_run (cfg : Cfg) (score : Nat → ℚ) (starts : List Nat)
    (sched : List (Nat × Oracle)) (s : St)
    (h : run cfg sched (start score starts) = some s) : Logged starts.length s :=
  (run_invariant cfg (fun s => WF starts.length s ∧ Logged starts.length s)
    (fun t o s s' hP hs =>
      ⟨wf_step cfg _ t o s s' hP.1 hs, logged_step cfg _ t o s s' hP.1 hP.2 hs⟩)
    sched _ s ⟨wf_start score starts, logged_start score starts⟩ h).2

/-- A step never writes a motion that is in the arena. -/
theorem step_heap (cfg : Cfg) (t : Nat) (o : Oracle) (s s' : St)
    (h : step cfg t o s = some s') (p : Nat) (m : Motion) (hm : s.heap[p]? = some m) :
    s'.heap[p]? = some m := by
  rcases step_effect cfg t o s s' h with ⟨hh, _⟩ | ⟨_, _, x, v, calls, hh, _⟩ | ⟨_, hh, _⟩
  · rw [hh]; exact hm
  · rw [hh]; exact getElem?_append_keep _ _ _ _ hm
  · rw [hh]; exact hm

theorem run_heap (cfg : Cfg) (sched : List (Nat × Oracle)) (s s' : St)
    (h : run cfg sched s = some s') (p : Nat) (m : Motion) (hm : s.heap[p]? = some m) :
    s'.heap[p]? = some m :=
  run_invariant cfg (fun x => x.heap[p]? = some m)
    (fun t o a b hP hs => step_heap cfg t o a b hs p m hP) sched s s' hm h

theorem ancestry_valid (heap : List Motion) : ∀ (chain : List (Nat × Motion)) (p : Option Nat),
    Ancestry heap p chain → ∀ x, x ∈ chain → heap[x.1]? = some x.2 := by
  intro chain
  induction chain with
  | nil => intro p _ x hx; cases hx
  | cons c rest ih =>
      intro p h x hx
      obtain ⟨q, m⟩ := c
      cases p with
      | none => simp [Ancestry] at h
      | some p =>
          simp only [Ancestry] at h
          obtain ⟨h1, h2, h3⟩ := h
          subst h1
          simp only [List.mem_cons] at hx
          rcases hx with hx | hx
          · subst hx; exact h2
          · exact ih _ h3 x hx

theorem mpathLoop_chain (heap : List Motion) : ∀ (chain : List (Nat × Motion)) (p : Option Nat)
    (mpath : List Nat) (fuel : Nat), Ancestry heap p chain → chain.length ≤ fuel →
    mpathLoop heap fuel p mpath = some (mpath ++ chain.map Prod.fst) := by
  intro chain
  induction chain with
  | nil =>
      intro p mpath fuel h _
      cases p with
      | none => cases fuel <;> simp [mpathLoop]
      | some p => simp [Ancestry] at h
  | cons c rest ih =>
      intro p mpath fuel h hf
      obtain ⟨q, m⟩ := c
      cases p with
      | none => simp [Ancestry] at h
      | some p =>
          simp only [Ancestry] at h
          obtain ⟨h1, h2, h3⟩ := h
          subst h1
          cases fuel with
          | zero => simp at hf
          | succ f =>
              simp only [List.length_cons, Nat.add_le_add_iff_right] at hf
              simp only [mpathLoop, h2]
              rw [ih m.parent (mpath ++ [p]) f h3 hf]
              simp

theorem appendStates_chain (heap : List Motion) (chain : List (Nat × Motion))
    (hv : ∀ x, x ∈ chain → heap[x.1]? = some x.2) : ∀ k, k ≤ chain.length →
    appendStates heap (chain.map Prod.fst) k
      = some (((chain.take k).reverse).map (fun x => x.2.state)) := by
  intro k
  induction k with
  | zero => intro _; simp [appendStates]
  | succ k ih =>
      intro hk
      have hk' : k < chain.length := hk
      obtain ⟨x, hx⟩ : ∃ x, chain[k]? = some x := ⟨chain[k], List.getElem?_eq_getElem hk'⟩
      have hval := hv x (List.mem_iff_getElem?.mpr ⟨k, hx⟩)
      simp only [appendStates, List.getElem?_map, hx, Option.map_some', hval,
        ih (Nat.le_of_lt hk')]
      simp [List.take_succ, hx]

theorem constructPath_chain (heap : List Motion) (final : Nat) (chain : List (Nat × Motion))
    (fuel : Nat) (h : Ancestry heap (some final) chain) (hf : chain.length ≤ fuel) :
    constructPath heap fuel final = some (chain.reverse.map (fun x => x.2.state)) := by
  unfold constructPath
  rw [mpathLoop_chain heap chain (some final) [] fuel h hf]
  simp only [List.nil_append, List.length_map]
  rw [appendStates_chain heap chain (ancestry_valid heap chain _ h) chain.length (Nat.le_refl _)]
  simp

theorem chain_exists (n : Nat) (s : St) (hW : WF n s) : ∀ p, p < s.heap.length →
    ∃ chain : List (Nat × Motion), Ancestry s.heap (some p) chain ∧ chain.length ≤ p + 1 ∧
      (∀ x, x ∈ chain → x.1 ≤ p) ∧ (chain.map Prod.fst).Pairwise (fun a b => b < a) ∧
      ∃ r, chain.getLast? = some r ∧ r.1 < n ∧ r.2.parent = none := by
  intro p
  induction p using Nat.strong_induction_on with
  | _ p ih =>
      intro hp
      have hm : s.heap[p]? = some s.heap[p] := List.getElem?_eq_getElem hp
      rcases Nat.lt_or_ge p n with hlt | hge
      · have hroot := hW.roots p _ hm hlt
        refine ⟨[(p, s.heap[p])], ?_, by simp, by simp, by simp, (p, s.heap[p]), by simp, hlt, hroot⟩
        simp only [Ancestry, hm, hroot, and_self]
      · obtain ⟨q, hq1, hq2, hq3⟩ := hW.grown p _ hm hge
        obtain ⟨chain, hc1, hc2, hc3, hc4, r, hr1, hr2⟩ := ih q hq2 (hW.inserted q hq3)
        refine ⟨(p, s.heap[p]) :: chain, ?_, ?_, ?_, ?_, r, ?_, hr2⟩
        · simp only [Ancestry, hm, hq1, true_and]; exact hc1
        · simp only [List.length_cons]; omega
        · intro x hx
          simp only [List.mem_cons] at hx
          rcases hx with hx | hx
          · subst hx; exact Nat.le_refl _
          · have := hc3 x hx; omega
        · simp only [List.map_cons, List.pairwise_cons]
          refine ⟨?_, hc4⟩
          intro a ha
          simp only [List.mem_map] at ha
          obtain ⟨x, hx, rfl⟩ := ha
          have := hc3 x hx; omega
        · cases chain with
          | nil => simp at hr1
          | cons c rest => simpa using hr1

theorem step_sol (cfg : Cfg) (t : Nat) (o : Oracle) (s s' : St)
    (h : step cfg t o s = some s') :
    s'.sol = s.sol ∨
    (((s.workers t).pc = PC.lockCommit ∨ (s.workers t).pc = PC.lockApprox) ∧
      s'.sol = { s.sol with lock := some t }) ∨
    (((s.workers t).pc = PC.unlockCommit ∨ (s.workers t).pc = PC.unlockApprox) ∧
      s'.sol = { s.sol with lock := none }) ∨
    ((s.workers t).pc = PC.commitDif ∧
      s'.sol = { s.sol with approxdif := ((s.workers t).dist : WithTop ℚ) }) ∨
    ((s.workers t).pc = PC.commitSol ∧
      s'.sol = { s.sol with solution := some (s.workers t).motion }) ∨
    ((s.workers t).pc = PC.recheck ∧ ((s.workers t).dist : WithTop ℚ) < s.sol.approxdif ∧
      s'.sol = { s.sol with approxdif := ((s.workers t).dist : WithTop ℚ),
                            approxsol := some (s.workers t).motion }) := by
  have hlt : ¬ cfg.threadCount ≤ t := by intro hc; simp [step, hc] at h
  cases hpc : (s.workers t).pc <;> simp only [step, hlt, hpc, if_false] at h
  case lockCommit => split at h <;> cases h; exact Or.inr (Or.inl ⟨Or.inl rfl, rfl⟩)
  case lockApprox => split at h <;> cases h; exact Or.inr (Or.inl ⟨Or.inr rfl, rfl⟩)
  case unlockCommit => cases h; exact Or.inr (Or.inr (Or.inl ⟨Or.inl rfl, rfl⟩))
  case unlockApprox => cases h; exact Or.inr (Or.inr (Or.inl ⟨Or.inr rfl, rfl⟩))
  case commitDif => cases h; exact Or.inr (Or.inr (Or.inr (Or.inl ⟨rfl, rfl⟩)))
  case commitSol => cases h; exact Or.inr (Or.inr (Or.inr (Or.inr (Or.inl ⟨rfl, rfl⟩))))
  case recheck =>
    split at h <;> cases h
    · rename_i hd
      exact Or.inr (Or.inr (Or.inr (Or.inr (Or.inr ⟨rfl, hd, rfl⟩))))
    · exact Or.inl rfl
  all_goals
    first
    | cases h
    | (split at h <;> cases h)
    | (split at h <;> first | cases h | (split at h <;> cases h))
  all_goals exact Or.inl rfl

theorem step_guard_set (cfg : Cfg) (t : Nat) (o : Oracle) (s s' : St)
    (h : step cfg t o s = some s') (hpc : (s.workers t).pc = PC.guard)
    (hset : s.sol.solution ≠ none) :
    (s'.workers t).pc = PC.done ∧ s'.sol = s.sol ∧ s'.heap = s.heap ∧
      s'.disc.motions = s.disc.motions := by
  have hlt : ¬ cfg.threadCount ≤ t := by intro hc; simp [step, hc] at h
  simp only [step, hlt, hpc, if_false] at h
  split at h
  · rename_i hc; exact absurd hc.1 hset
  · cases h; simp

theorem solv_step (cfg : Cfg) (t : Nat) (o : Oracle) (s s' : St)
    (h1 : ∀ t, (s.workers t).pc.inCommit = true → (s.workers t).solv = true)
    (h : step cfg t o s = some s') :
    ∀ t, (s'.workers t).pc.inCommit = true → (s'.workers t).solv = true := by
  have hlt : ¬ cfg.threadCount ≤ t := by intro hc; simp [step, hc] at h
  have h1t := h1 t
  cases hpc : (s.workers t).pc <;> simp only [step, hlt, hpc, if_false] at h <;>
    simp [hpc, PC.inCommit] at h1t
  all_goals
    first
    | cases h
    | (split at h <;> cases h)
    | (split at h <;> first | cases h | (split at h <;> cases h))
  all_goals
    intro u hu
    by_cases hut : u = t
    · subst hut
      simp only [goto_workers, setW_workers, if_true] at hu ⊢
      first
      | (simp [PC.inCommit] at hu; done)
      | exact h1t
      | (split at hu <;> simp [PC.inCommit] at hu; assumption)
    · simp only [goto_workers, setW_workers, hut, if_false] at hu ⊢
      exact h1 u hu

theorem solv_run (cfg : Cfg) (score : Nat → ℚ) (starts : List Nat)
    (sched : List (Nat × Oracle)) (s : St)
    (h : run cfg sched (start score starts) = some s) :
    ∀ t, (s.workers t).pc.inCommit = true → (s.workers t).solv = true := by
  refine run_invariant cfg
    (fun s => ∀ t, (s.workers t).pc.inCommit = true → (s.workers t).solv = true)
    (fun t o s s' hP hs => solv_step cfg t o s s' hP hs) sched _ s ?_ h
  obtain ⟨⟨_, _, h3, _⟩, _⟩ := seeded_start score starts
  intro t ht; rw [h3 t] at ht; cases ht

theorem lastSelected_calls (cfg : Cfg) (t src : Nat) (o : Oracle) (k : Nat) (l : List Event) :
    lastSelected k ((sampleAttempt cfg t src o).calls ++ l) = lastSelected k l := by
  unfold sampleAttempt validate
  split <;> split <;> simp [lastSelected]

theorem updatesSource_calls (cfg : Cfg) (t src : Nat) (o : Oracle) (k : Nat) (l : List Event) :
    UpdatesSource k ((sampleAttempt cfg t src o).calls ++ l) ↔ UpdatesSource k l := by
  unfold sampleAttempt validate
  split <;> split <;> simp [UpdatesSource]

theorem sourced_step (cfg : Cfg) (k t : Nat) (o : Oracle) (s s' : St) (hP : Sourced k s)
    (h : step cfg t o s = some s') : Sourced k s' := by
  have hlt : ¬ cfg.threadCount ≤ t := by intro hc; simp [step, hc] at h
  obtain ⟨h1, h2⟩ := hP
  cases hpc : (s.workers t).pc <;> simp only [step, hlt, hpc, if_false] at h
  all_goals
    first
    | cases h
    | (split at h <;> cases h)
    | (split at h <;> first | cases h | (split at h <;> cases h))
  all_goals
    try (cases hs : (s.workers t).solv <;> simp only [hs, Bool.false_eq_true, if_false, if_true])
  all_goals
    by_cases hkt : k = t
    · subst hkt
      simp [hpc, PC.midIteration] at h1
      refine ⟨?_, ?_⟩ <;>
        simp [lastSelected, UpdatesSource, PC.midIteration, lastSelected_calls,
          updatesSource_calls] <;>
        first | assumption | exact ⟨h1, h2⟩
    · have hkt' : ¬ t = k := fun h => hkt h.symm
      refine ⟨?_, ?_⟩ <;>
        simp [lastSelected, UpdatesSource, lastSelected_calls, updatesSource_calls, hkt, hkt'] <;>
        assumption

theorem sourced_start (score : Nat → ℚ) (starts : List Nat) (k : Nat) :
    Sourced k (start score starts) := by
  obtain ⟨⟨_, _, h3, _, _, _, _, h8⟩, _⟩ := seeded_start score starts
  refine ⟨?_, ?_⟩
  · intro hm; rw [h3 k] at hm; cases hm
  · have : ∀ l : List Event, (∀ e, e ∈ l → ∃ q h, e = Event.addMotion q h) →
        UpdatesSource k l := by
      intro l
      induction l with
      | nil => intro _; trivial
      | cons e rest ih =>
          intro hl
          obtain ⟨q, lk, rfl⟩ := hl e (List.mem_cons_self _ _)
          simp only [UpdatesSource]
          exact ih (fun x hx => hl x (List.mem_cons_of_mem _ hx))
    exact this _ h8

theorem sourced_run (cfg : Cfg) (score : Nat → ℚ) (starts : List Nat)
    (sched : List (Nat × Oracle)) (s : St) (k : Nat)
    (h : run cfg sched (start score starts) = some s) : Sourced k s :=
  run_invariant cfg (Sourced k) (fun t o s s' hP hs => sourced_step cfg k t o s s' hP hs)
    sched _ s (sourced_start score starts k) h

theorem some_getD_of_isSome {α : Type} (x : Option α) (d : α) (h : x.isSome = true) :
    x = some (x.getD d) := by
  cases x with
  | none => cases h
  | some a => rfl

theorem updatesSource_split (t c : Nat) (h : Option Nat) (post : List Event) :
    ∀ pre : List Event, UpdatesSource t (pre ++ Event.updateCell t c h :: post) →
      lastSelected t post = some c := by
  intro pre
  induction pre with
  | nil => intro hu; simp only [List.nil_append, UpdatesSource] at hu; exact hu.1 trivial
  | cons e rest ih =>
      intro hu
      cases e <;> simp only [List.cons_append, UpdatesSource] at hu <;>
        first | exact ih hu | exact ih hu.2

/-! ## The solution record -/

/-- C1, as the claim states it, fails: in the run `raceToSol` worker 0 has
committed the goal-satisfying motion 1 as `sol->solution` and left its loop,
and the commit step of worker 1 (line 78), which produced the goal-satisfying
motion 2, replaces it. -/
theorem exact_slot_overwritten :
    (run cfgNear raceToSol start0).map
        (fun s => (s.sol.solution, (s.workers 0).pc, (s.workers 1).pc,
          (s.workers 1).solv, (s.workers 1).motion))
      = some (some 1, PC.done, PC.commitSol, true, 2) ∧
    (run cfgNear (raceToSol ++ steps 1 1 {}) start0).map (fun s => s.sol.solution)
      = some (some 2) := by
  decide!

/-- C1, amended: in every interleaving, once the exact-solution slot is set no
step clears it; a worker that finds it set at its loop guard leaves the loop and
does not touch the record; and the only step that changes its content is the
commit write of line 78 by a worker whose motion satisfied the goal, which then
puts its own motion in the slot. -/
theorem exact_slot_stays_set (cfg : Cfg) (score : Nat → ℚ) (starts : List Nat)
    (sched : List (Nat × Oracle)) (s s' : St) (t : Nat) (o : Oracle)
    (hrun : run cfg sched (start score starts) = some s)
    (hstep : step cfg t o s = some s') (hset : s.sol.solution ≠ none) :
    s'.sol.solution ≠ none ∧
    ((s.workers t).pc = PC.guard → (s'.workers t).pc = PC.done ∧ s'.sol = s.sol) ∧
    (s'.sol.solution ≠ s.sol.solution →
      (s.workers t).pc = PC.commitSol ∧ (s.workers t).solv = true ∧
        s'.sol.solution = some (s.workers t).motion) := by
  have hsolv := solv_run cfg score starts sched s hrun t
  refine ⟨?_, ?_, ?_⟩
  · rcases step_sol cfg t o s s' hstep with h | ⟨_, h⟩ | ⟨_, h⟩ | ⟨_, h⟩ | ⟨_, h⟩ | ⟨_, _, h⟩ <;>
      rw [h] <;> first | exact hset | exact Option.some_ne_none _
  · intro hpc
    have := step_guard_set cfg t o s s' hstep hpc hset
    exact ⟨this.1, this.2.1⟩
  · intro hne
    rcases step_sol cfg t o s s' hstep with h | ⟨_, h⟩ | ⟨_, h⟩ | ⟨_, h⟩ | ⟨hpc, h⟩ | ⟨_, _, h⟩
    · exact absurd (congrArg SolutionInfo.solution h) hne
    · exact absurd (congrArg SolutionInfo.solution h) hne
    · exact absurd (congrArg SolutionInfo.solution h) hne
    · exact absurd (congrArg SolutionInfo.solution h) hne
    · exact ⟨hpc, hsolv (by rw [hpc]; rfl), congrArg SolutionInfo.solution h⟩
    · exact absurd (congrArg SolutionInfo.solution h) hne

/-- Witness of `exact_slot_stays_set`: the run `raceToSol` and the commit write
of worker 1. -/
theorem exact_slot_stays_set_witness :
    run cfgNear raceToSol start0 = some (stateAfter cfgNear raceToSol) ∧
    step cfgNear 1 {} (stateAfter cfgNear raceToSol)
      = some (stepFrom cfgNear 1 {} (stateAfter cfgNear raceToSol)) ∧
    (stateAfter cfgNear raceToSol).sol.solution ≠ none ∧
    (stepFrom cfgNear 1 {} (stateAfter cfgNear raceToSol)).sol.solution ≠ none :=
  have h1 : (run cfgNear raceToSol start0).isSome = true := by decide!
  have h2 : (step cfgNear 1 {} (stateAfter cfgNear raceToSol)).isSome = true := by decide!
  have hrun : run cfgNear raceToSol start0 = some (stateAfter cfgNear raceToSol) :=
    some_getD_of_isSome _ _ h1
  have hstep : step cfgNear 1 {} (stateAfter cfgNear raceToSol)
      = some (stepFrom cfgNear 1 {} (stateAfter cfgNear raceToSol)) :=
    some_getD_of_isSome _ _ h2
  have hset : (stateAfter cfgNear raceToSol).sol.solution ≠ none := by decide!
  ⟨hrun, hstep, hset,
    (exact_slot_stays_set cfgNear (fun _ => 1) [0] raceToSol _ _ 1 {} hrun hstep hset).1⟩

/-- C2, as the claim states it, fails at the exact-commit write: in the run
`raceToDif` worker 0 has committed a goal-satisfying motion at distance 0, so
`approxdif` is 0, and worker 1, which passed its guard before that commit, is at
line 77 with a goal-satisfying motion at distance 1/2; its write raises
`approxdif` to 1/2. -/
theorem approxdif_raised_by_commit :
    (run cfgNear raceToDif start0).map (fun s => (s.sol.approxdif, (s.workers 1).pc))
      = some (((0 : ℚ) : WithTop ℚ), PC.commitDif) ∧
    (run cfgNear (raceToDif ++ steps 1 1 {}) start0).map (fun s => s.sol.approxdif)
      = some ((1 / 2 : ℚ) : WithTop ℚ) ∧
    ¬ (((1 / 2 : ℚ) : WithTop ℚ) ≤ ((0 : ℚ) : WithTop ℚ)) := by
  decide!

/-- C2, amended: `approxdif` starts at infinity; every step of every worker other
than the exact-commit write of line 77 leaves it smaller or equal; `approxsol`
changes, and `approxdif` changes outside line 77, only in the guarded
improve-approximate step and only when the new motion's distance is strictly
smaller than the recorded value, and then they become that distance and that
motion; the exact-commit write sets `approxdif` to the committed motion's
distance, whatever the recorded value. -/
theorem approxdif_improves (cfg : Cfg) (score : Nat → ℚ) (starts : List Nat) (t : Nat)
    (o : Oracle) (s s' : St) (hstep : step cfg t o s = some s') :
    (start score starts).sol.approxdif = ⊤ ∧
    ((s.workers t).pc ≠ PC.commitDif → s'.sol.approxdif ≤ s.sol.approxdif) ∧
    ((s'.sol.approxsol ≠ s.sol.approxsol ∨
        ((s.workers t).pc ≠ PC.commitDif ∧ s'.sol.approxdif ≠ s.sol.approxdif)) →
      (s.workers t).pc = PC.recheck ∧ ((s.workers t).dist : WithTop ℚ) < s.sol.approxdif ∧
        s'.sol.approxdif = ((s.workers t).dist : WithTop ℚ) ∧
        s'.sol.approxsol = some (s.workers t).motion) ∧
    ((s.workers t).pc = PC.commitDif →
      s'.sol.approxdif = ((s.workers t).dist : WithTop ℚ)) := by
  refine ⟨(seeded_start score starts).1.approxdif, ?_, ?_, ?_⟩
  · intro hpc
    rcases step_sol cfg t o s s' hstep with h | ⟨_, h⟩ | ⟨_, h⟩ | ⟨hc, _⟩ | ⟨_, h⟩ | ⟨_, hd, h⟩
    · rw [h]
    · rw [h]
    · rw [h]
    · exact absurd hc hpc
    · rw [h]
    · rw [h]; exact le_of_lt hd
  · intro hne
    rcases step_sol cfg t o s s' hstep with h | ⟨_, h⟩ | ⟨_, h⟩ | ⟨hc, h⟩ | ⟨_, h⟩ | ⟨hr, hd, h⟩
    · rcases hne with hne | ⟨_, hne⟩
      · exact absurd (congrArg SolutionInfo.approxsol h) hne
      · exact absurd (congrArg SolutionInfo.approxdif h) hne
    · rcases hne with hne | ⟨_, hne⟩
      · exact absurd (congrArg SolutionInfo.approxsol h) hne
      · exact absurd (congrArg SolutionInfo.approxdif h) hne
    · rcases hne with hne | ⟨_, hne⟩
      · exact absurd (congrArg SolutionInfo.approxsol h) hne
      · exact absurd (congrArg SolutionInfo.approxdif h) hne
    · rcases hne with hne | ⟨hne, _⟩
      · exact absurd (congrArg SolutionInfo.approxsol h) hne
      · exact absurd hc hne
    · rcases hne with hne | ⟨_, hne⟩
      · exact absurd (congrArg SolutionInfo.approxsol h) hne
      · exact absurd (congrArg SolutionInfo.approxdif h) hne
    · exact ⟨hr, hd, congrArg SolutionInfo.approxdif h, congrArg SolutionInfo.approxsol h⟩
  · intro hpc
    have hlt : ¬ cfg.threadCount ≤ t := by intro hc; simp [step, hc] at hstep
    simp only [step, hlt, hpc, if_false] at hstep
    cases hstep
    rfl

/-- Witness of `approxdif_improves`: the guarded improve-approximate step of
worker 0 in the run `toRecheck`, which lowers `approxdif` from infinity to 3. -/
theorem approxdif_improves_witness :
    step cfgGeneric 0 {} (stateAfter cfgGeneric toRecheck)
      = some (stepFrom cfgGeneric 0 {} (stateAfter cfgGeneric toRecheck)) ∧
    (stateAfter cfgGeneric toRecheck).sol.approxdif = ⊤ ∧
    (stepFrom cfgGeneric 0 {} (stateAfter cfgGeneric toRecheck)).sol.approxdif
      = ((3 : ℚ) : WithTop ℚ) ∧
    (stepFrom cfgGeneric 0 {} (stateAfter cfgGeneric toRecheck)).sol.approxdif
      ≤ (stateAfter cfgGeneric toRecheck).sol.approxdif :=
  have h2 : (step cfgGeneric 0 {} (stateAfter cfgGeneric toRecheck)).isSome = true := by
    decide!
  have hstep : step cfgGeneric 0 {} (stateAfter cfgGeneric toRecheck)
      = some (stepFrom cfgGeneric 0 {} (stateAfter cfgGeneric toRecheck)) :=
    some_getD_of_isSome _ (stateAfter cfgGeneric toRecheck) h2
  ⟨hstep, by decide!, by decide!,
    (approxdif_improves cfgGeneric (fun _ => 1) [0] 0 {} _ _ hstep).2.1 (by decide!)⟩

/-! ## The sampling dispatch -/

/-- C3: an attempt whose branch has the enhanced capability (the goal branch with
a `NearGoalSpace`, or the other branch with a `NearProjectedStateSampler`) keeps
its candidate and makes no call to `checkMotion`; and when both capabilities are
configured the log of a whole run, under any interleaving, holds no call to
`checkMotion`. -/
theorem enhanced_branch_skips_checkMotion (cfg : Cfg) (t src : Nat) (o : Oracle)
    (score : Nat → ℚ) (starts : List Nat) (sched : List (Nat × Oracle)) (s : St)
    (hrun : run cfg sched (start score starts) = some s) :
    (enhanced cfg o = true →
      (sampleAttempt cfg t src o).keep = true ∧
      (sampleAttempt cfg t src o).calls.countP Event.isCheckMotion = 0) ∧
    (cfg.goalKind = GoalKind.near → cfg.samplerKind = SamplerKind.nearProjected →
      s.log.countP Event.isCheckMotion = 0) := by
  refine ⟨?_, ?_⟩
  · intro h
    have := attempt_enhanced cfg t src o h
    exact ⟨this.1, this.2.2⟩
  · intro hg hs
    exact nocheck_run cfg score starts sched s hg hs hrun

/-- Witness of `enhanced_branch_skips_checkMotion`: the run `raceDone` with both
near-projected capabilities, in which two motions are created. -/
theorem enhanced_branch_skips_checkMotion_witness :
    run cfgNear raceDone start0 = some (stateAfter cfgNear raceDone) ∧
    (stateAfter cfgNear raceDone).heap.length = 3 ∧
    enhanced cfgNear (hit 5 0) = true ∧
    (sampleAttempt cfgNear 0 0 (hit 5 0)).keep = true ∧
    (sampleAttempt cfgNear 0 0 (hit 5 0)).calls.countP Event.isCheckMotion = 0 ∧
    (stateAfter cfgNear raceDone).log.countP Event.isCheckMotion = 0 :=
  have h1 : (run cfgNear raceDone start0).isSome = true := by decide!
  have hrun : run cfgNear raceDone start0 = some (stateAfter cfgNear raceDone) :=
    some_getD_of_isSome _ start0 h1
  have hthm := enhanced_branch_skips_checkMotion cfgNear 0 0 (hit 5 0) (fun _ => 1) [0]
    raceDone _ hrun
  have henh : enhanced cfgNear (hit 5 0) = true := by decide!
  ⟨hrun, by decide!, henh, (hthm.1 henh).1, (hthm.1 henh).2, hthm.2 rfl rfl⟩

/-- C4: an attempt whose branch lacks the enhanced capability calls `checkMotion`
on the source and the candidate and keeps the candidate exactly when the answer
is "valid", or "invalid" with a valid fraction above `minValidPathFraction_`; and
in a run without near-projected capabilities, under any interleaving, every
motion a worker has created was let through by such an answer. -/
theorem validated_branch_acceptance (cfg : Cfg) (t src : Nat) (o : Oracle)
    (score : Nat → ℚ) (starts : List Nat) (sched : List (Nat × Oracle)) (s : St)
    (hrun : run cfg sched (start score starts) = some s) :
    (enhanced cfg o = false →
      ((sampleAttempt cfg t src o).keep = true ↔
        (o.valid = true ∨ (o.valid = false ∧ cfg.minValidPathFraction < o.fraction))) ∧
      Event.checkMotion t src o.sampled o.valid o.fraction
        ∈ (sampleAttempt cfg t src o).calls) ∧
    (cfg.goalKind ≠ GoalKind.near → cfg.samplerKind = SamplerKind.generic →
      ∀ p, starts.length ≤ p → p < s.heap.length →
        (∃ u v, Event.newMotion u p v ∈ s.log) ∧
        ∀ u v, Event.newMotion u p v ∈ s.log →
          ∃ valid fraction, v = some (valid, fraction) ∧
            (valid = true ∨ cfg.minValidPathFraction < fraction)) := by
  refine ⟨?_, ?_⟩
  · intro h
    have := attempt_validated cfg t src o h
    exact ⟨this.1, this.2.2⟩
  · intro hg hs p hp1 hp2
    exact ⟨(logged_run cfg score starts sched s hrun).created p hp1 hp2,
      fun u v hmem => verdicts_run cfg score starts sched s hg hs hrun u p v hmem⟩

/-- Witness of `validated_branch_acceptance`: the run `twoMisses` without
near-projected capabilities, in which worker 0 creates the motions 1 and 2. -/
theorem validated_branch_acceptance_witness :
    run cfgGeneric twoMisses start0 = some (stateAfter cfgGeneric twoMisses) ∧
    (stateAfter cfgGeneric twoMisses).heap.length = 3 ∧
    enhanced cfgGeneric blocked = false ∧
    (sampleAttempt cfgGeneric 0 0 blocked).keep = false ∧
    Event.checkMotion 0 0 blocked.sampled blocked.valid blocked.fraction
      ∈ (sampleAttempt cfgGeneric 0 0 blocked).calls ∧
    Event.newMotion 0 2 (some (true, 0)) ∈ (stateAfter cfgGeneric twoMisses).log ∧
    (∃ valid fraction, (some (true, 0) : Option (Bool × ℚ)) = some (valid, fraction) ∧
      (valid = true ∨ cfgGeneric.minValidPathFraction < fraction)) ∧
    (∃ u v, Event.newMotion u 2 v ∈ (stateAfter cfgGeneric twoMisses).log) :=
  have h1 : (run cfgGeneric twoMisses start0).isSome = true := by decide!
  have hrun : run cfgGeneric twoMisses start0 = some (stateAfter cfgGeneric twoMisses) :=
    some_getD_of_isSome _ start0 h1
  have hthm := validated_branch_acceptance cfgGeneric 0 0 blocked (fun _ => 1) [0]
    twoMisses _ hrun
  have hlen : (stateAfter cfgGeneric twoMisses).heap.length = 3 := by decide!
  have hmem : Event.newMotion 0 2 (some (true, 0)) ∈ (stateAfter cfgGeneric twoMisses).log := by
    decide!
  ⟨hrun, hlen, by decide!, by decide!, (hthm.1 (by decide!)).2, hmem,
    (hthm.2 (by decide) rfl 2 (by decide) (by decide!)).2 0 _ hmem,
    (hthm.2 (by decide) rfl 2 (by decide) (by decide!)).1⟩

/-! ## The coordinator -/

/-- C5: when the parent links from the final motion lead through `chain`, the
final motion first and a motion without parent last, the path that `solve`
builds is the states of the chain in the opposite order, the root's state first
and the final motion's state last, each motion of the chain once: as many states
as the chain has motions. Any number of turns of the `while` that is at least
the length of the chain is enough. -/
theorem path_reconstruction (heap : List Motion) (final : Nat)
    (chain : List (Nat × Motion)) (fuel : Nat)
    (h : Ancestry heap (some final) chain) (hf : chain.length ≤ fuel) :
    ∃ path, constructPath heap fuel final = some path ∧
      path = chain.reverse.map (fun x => x.2.state) ∧ path.length = chain.length ∧
      (∀ i, i < chain.length →
        path[i]? = (chain[chain.length - 1 - i]?).map (fun x => x.2.state)) ∧
      path.head? = (chain.getLast?).map (fun x => x.2.state) ∧
      path.getLast? = (chain.head?).map (fun x => x.2.state) := by
  refine ⟨_, constructPath_chain heap final chain fuel h hf, rfl, by simp, ?_, ?_, ?_⟩
  · intro i hi
    rw [List.getElem?_map, List.getElem?_reverse hi]
  · simp [List.head?_map, List.head?_reverse]
  · simp [List.getLast?_map, List.getLast?_reverse]

/-- Witness of `path_reconstruction`: a chain of five motions gives its five
states, root first. -/
theorem path_reconstruction_witness :
    ∃ path, constructPath fiveChain 5 4 = some path ∧
      path = [10, 11, 12, 13, 14] ∧ path.length = 5 := by
  obtain ⟨path, h1, h2, h3, _⟩ := path_reconstruction fiveChain 4
    [(4, { state := 14, parent := some 3 }), (3, { state := 13, parent := some 2 }),
     (2, { state := 12, parent := some 1 }), (1, { state := 11, parent := some 0 }),
     (0, { state := 10, parent := none })] 5
    (by simp [Ancestry, fiveChain]) (by decide)
  exact ⟨path, h1, h2, h3⟩

/-- C6: with no start state the discretization holds no motion after seeding,
and `solve` returns `INVALID_START` whatever the schedule: no thread is created,
no collaborator is called (so no sampling collaborator), no path is added. -/
theorem no_start_state (cfg : Cfg) (score : Nat → ℚ) (sched : List (Nat × Oracle)) :
    (start score []).disc.motions = [] ∧
    ∃ r, solve cfg score [] sched = some r ∧ r.status = PlannerStatus.invalidStart ∧
      r.spawned = 0 ∧ r.log = [] ∧ r.log.countP Event.isSampling = 0 ∧ r.added = none :=
  ⟨rfl, _, rfl, rfl, rfl, rfl, rfl, rfl⟩

theorem seed_motions_length (l : List Nat) : ∀ s,
    (seed l s).disc.motions.length = s.disc.motions.length + l.length := by
  induction l with
  | nil => intro s; rfl
  | cons st rest ih =>
      intro s
      simp only [seed]
      rw [ih]
      simp only [List.length_append, List.length_singleton, List.length_cons, List.length_nil]
      omega

theorem constructPath_wf (n : Nat) (s : St) (hW : WF n s) (p : Nat) (hp : p < s.heap.length) :
    ∃ path m, constructPath s.heap s.heap.length p = some path ∧ s.heap[p]? = some m ∧
      path.getLast? = some m.state := by
  obtain ⟨chain, hc1, hc2, _⟩ := chain_exists n s hW p hp
  have hpath := constructPath_chain s.heap p chain s.heap.length hc1 (by omega)
  cases chain with
  | nil => simp [Ancestry] at hc1
  | cons c rest =>
      obtain ⟨q, m⟩ := c
      simp only [Ancestry] at hc1
      obtain ⟨h1, h2, _⟩ := hc1
      exact ⟨_, m, hpath, h2, by simp⟩

/-- C7: once every worker has left its loop, `solve` returns, and what it
reports is read off the solution record: with an exact solution, success with
the approximate flag off and a path that ends at the exact motion; with none but
an approximate solution, success with the approximate flag on, the recorded
`approxdif` as the difference and a path that ends at the approximate motion;
with neither, no success and no path added. -/
theorem solve_outcome (cfg : Cfg) (score : Nat → ℚ) (starts : List Nat)
    (sched : List (Nat × Oracle)) (s : St) (hne : starts ≠ [])
    (hrun : run cfg sched (start score starts) = some s) (hj : joined cfg s) :
    ∃ r, solve cfg score starts sched = some r ∧ r.spawned = cfg.threadCount ∧
      (∀ p, s.sol.solution = some p →
        r.status = PlannerStatus.flags true false ∧
        ∃ path m, r.added = some { states := path, approximate := false,
                                   difference := s.sol.approxdif } ∧
          s.heap[p]? = some m ∧ path.getLast? = some m.state) ∧
      (∀ p, s.sol.solution = none → s.sol.approxsol = some p →
        r.status = PlannerStatus.flags true true ∧
        ∃ path m, r.added = some { states := path, approximate := true,
                                   difference := s.sol.approxdif } ∧
          s.heap[p]? = some m ∧ path.getLast? = some m.state) ∧
      (s.sol.solution = none → s.sol.approxsol = none →
        r.status = PlannerStatus.flags false true ∧ r.added = none) := by
  have hW := wf_run cfg score starts sched s hrun
  have hlen : (start score starts).disc.motions.length ≠ 0 := by
    rw [start, seed_motions_length]
    cases starts with
    | nil => exact absurd rfl hne
    | cons a l => simp
  have hsolve : solve cfg score starts sched = finish cfg s := by
    simp only [solve, hlen, if_false, hrun, hj, if_true]
  rw [hsolve]
  cases hsol : s.sol.solution with
  | some p =>
      obtain ⟨path, m, h1, h2, h3⟩ := constructPath_wf _ s hW p (hW.solution p hsol)
      have hfin : finish cfg s = some
          { status := PlannerStatus.flags true false,
            added := some { states := path, approximate := false,
                            difference := s.sol.approxdif },
            lastGoalMotion := some p, spawned := cfg.threadCount, log := s.log } := by
        simp [finish, hsol, h1]
      refine ⟨_, hfin, rfl, ?_, ?_, ?_⟩
      · intro p' hp'
        cases hp'
        exact ⟨rfl, path, m, rfl, h2, h3⟩
      · intro p' hp'; cases hp'
      · intro hp'; cases hp'
  | none =>
      cases happ : s.sol.approxsol with
      | some p =>
          obtain ⟨path, m, h1, h2, h3⟩ := constructPath_wf _ s hW p (hW.approxsol p happ)
          have hfin : finish cfg s = some
              { status := PlannerStatus.flags true true,
                added := some { states := path, approximate := true,
                                difference := s.sol.approxdif },
                lastGoalMotion := some p, spawned := cfg.threadCount, log := s.log } := by
            simp [finish, hsol, happ, h1]
          refine ⟨_, hfin, rfl, ?_, ?_, ?_⟩
          · intro p' hp'; cases hp'
          · intro p' _ hp'
            cases hp'
            exact ⟨rfl, path, m, rfl, h2, h3⟩
          · intro _ hp'; cases hp'
      | none =>
          have hfin : finish cfg s = some
              { status := PlannerStatus.flags false true, added := none,
                lastGoalMotion := none, spawned := cfg.threadCount, log := s.log } := by
            simp [finish, hsol, happ]
          refine ⟨_, hfin, rfl, ?_, ?_, ?_⟩
          · intro p' hp'; cases hp'
          · intro p' _ hp'; cases hp'
          · intro _ _; exact ⟨rfl, rfl⟩

/-- Witness of `solve_outcome`: the run `twoMisses`, which ends with the
approximate solution 1 at distance 3 and no exact solution. -/
theorem solve_outcome_witness :
    run cfgGeneric twoMisses start0 = some (stateAfter cfgGeneric twoMisses) ∧
    joined cfgGeneric (stateAfter cfgGeneric twoMisses) ∧
    (stateAfter cfgGeneric twoMisses).sol.solution = none ∧
    (stateAfter cfgGeneric twoMisses).sol.approxsol = some 1 ∧
    ∃ r, solve cfgGeneric (fun _ => 1) [0] twoMisses = some r ∧
      r.status = PlannerStatus.flags true true ∧
      ∃ path m,
        r.added = some { states := path, approximate := true,
                         difference := (stateAfter cfgGeneric twoMisses).sol.approxdif } ∧
        (stateAfter cfgGeneric twoMisses).heap[1]? = some m ∧
        path.getLast? = some m.state := by
  have h1 : (run cfgGeneric twoMisses start0).isSome = true := by decide!
  have hrun : run cfgGeneric twoMisses start0 = some (stateAfter cfgGeneric twoMisses) :=
    some_getD_of_isSome _ start0 h1
  have hj : joined cfgGeneric (stateAfter cfgGeneric twoMisses) := by decide!
  have hsol : (stateAfter cfgGeneric twoMisses).sol.solution = none := by decide!
  have happ : (stateAfter cfgGeneric twoMisses).sol.approxsol = some 1 := by decide!
  obtain ⟨r, hr, _, _, h2, _⟩ := solve_outcome cfgGeneric (fun _ => 1) [0] twoMisses _
    (by decide) hrun hj
  exact ⟨hrun, hj, hsol, happ, r, hr, h2 1 hsol happ⟩

theorem seed_heap (l : List Nat) : ∀ s,
    (seed l s).heap = s.heap ++ l.map (fun st => { state := st, parent := none }) := by
  induction l with
  | nil => intro s; simp [seed]
  | cons st rest ih => intro s; simp only [seed]; rw [ih]; simp

/-! ## The parent graph -/

/-- C8: in every state a solve call reaches, for every thread count and
interleaving: the first motions of the arena are the seeded start motions and
have no parent; every other motion has as parent a motion allocated before it
and inserted in the discretization, and in the log its creation comes after the
`addMotion` of its parent; no later step changes the state or the parent of a
motion; and the parent links from any motion run through distinct motions and
end, after at most as many links as there are motions, at a seeded start
motion. -/
theorem parent_forest (cfg : Cfg) (score : Nat → ℚ) (starts : List Nat)
    (sched : List (Nat × Oracle)) (s : St)
    (hrun : run cfg sched (start score starts) = some s) :
    (∀ (i st : Nat), starts[i]? = some st →
      s.heap[i]? = some ({ state := st, parent := none } : Motion)) ∧
    (∀ (p : Nat) (m : Motion), s.heap[p]? = some m → p < starts.length → m.parent = none) ∧
    (∀ (p : Nat) (m : Motion), s.heap[p]? = some m → starts.length ≤ p →
      ∃ q, m.parent = some q ∧ q < p ∧ q ∈ s.disc.motions) ∧
    (∀ pre post u p v, s.log = pre ++ Event.newMotion u p v :: post →
      ∃ m q h, s.heap[p]? = some m ∧ m.parent = some q ∧ Event.addMotion q h ∈ post) ∧
    (∀ sched' s', run cfg sched' s = some s' →
      ∀ (p : Nat) (m : Motion), s.heap[p]? = some m → s'.heap[p]? = some m) ∧
    (∀ p, p < s.heap.length →
      ∃ chain, Ancestry s.heap (some p) chain ∧ (chain.map Prod.fst).Nodup ∧
        chain.length ≤ s.heap.length ∧
        ∃ r, chain.getLast? = some r ∧ r.1 < starts.length ∧ r.2.parent = none) := by
  have hW := wf_run cfg score starts sched s hrun
  have hL := logged_run cfg score starts sched s hrun
  refine ⟨?_, hW.roots, hW.grown, ?_, ?_, ?_⟩
  · intro i st hi
    apply run_heap cfg sched _ s hrun
    rw [start, seed_heap]
    simp [fresh, List.getElem?_map, hi]
  · intro pre post u p v hlog
    have := hL.parents
    rw [hlog] at this
    exact parentsInserted_split _ u p v post pre this
  · intro sched' s' hrun' p m hm
    exact run_heap cfg sched' s s' hrun' p m hm
  · intro p hp
    obtain ⟨chain, h1, h2, _, h4, h5⟩ := chain_exists _ s hW p hp
    refine ⟨chain, h1, ?_, by omega, h5⟩
    exact h4.imp (fun hab => Nat.ne_of_gt hab)

/-- Witness of `parent_forest`: the run `twoMisses`, whose arena holds the start
motion 0 and the motions 1 and 2 created by worker 0. -/
theorem parent_forest_witness :
    run cfgGeneric twoMisses start0 = some (stateAfter cfgGeneric twoMisses) ∧
    (stateAfter cfgGeneric twoMisses).heap.length = 3 ∧
    ∃ chain, Ancestry (stateAfter cfgGeneric twoMisses).heap (some 2) chain ∧
      (chain.map Prod.fst).Nodup ∧
      chain.length ≤ (stateAfter cfgGeneric twoMisses).heap.length ∧
      ∃ r, chain.getLast? = some r ∧ r.1 < [0].length ∧ r.2.parent = none := by
  have h1 : (run cfgGeneric twoMisses start0).isSome = true := by decide!
  have hrun : run cfgGeneric twoMisses start0 = some (stateAfter cfgGeneric twoMisses) :=
    some_getD_of_isSome _ start0 h1
  have hlen : (stateAfter cfgGeneric twoMisses).heap.length = 3 := by decide!
  exact ⟨hrun, hlen,
    (parent_forest cfgGeneric (fun _ => 1) [0] twoMisses _ hrun).2.2.2.2.2 2 (by decide!)⟩

/-! ## The bookkeeping of the cells -/

/-- C9, as the claim states it, fails in the turn that commits an exact
solution: in the run `soloHit` worker 0 selects once, commits and leaves the loop
by `break`, worker 1 leaves at its guard, and no `updateCell` was called. -/
theorem exact_turn_skips_updateCell :
    (run cfgNear soloHit start0).isSome = true ∧
    (stateAfter cfgNear soloHit).sol.solution = some 1 ∧
    (stateAfter cfgNear soloHit).log.countP (Event.isCommitBy 0) = 1 ∧
    joined cfgNear (stateAfter cfgNear soloHit) ∧
    (stateAfter cfgNear soloHit).log.countP (Event.isSelectBy 0) = 1 ∧
    (stateAfter cfgNear soloHit).log.countP (Event.isUpdateBy 0) = 0 ∧
    (stateAfter cfgNear soloHit).log.countP (Event.isSelectBy 1) = 0 ∧
    (stateAfter cfgNear soloHit).log.countP (Event.isUpdateBy 1) = 0 := by
  decide!

/-- C9, amended: under any interleaving every `updateCell` of a worker is made
while it owns `discLock_`, on the cell of its latest `selectMotion`; and a turn
of the loop ends with that call unless it writes the exact solution, which a
worker does at most once, leaving the loop by `break` without the call: the
worker's calls to `selectMotion` are as many as its calls to `updateCell` plus
its exact commits, plus one while a turn is under way. -/
theorem updateCell_bookkeeping (cfg : Cfg) (score : Nat → ℚ) (starts : List Nat)
    (sched : List (Nat × Oracle)) (s : St) (t : Nat)
    (hrun : run cfg sched (start score starts) = some s) :
    (∀ pre post c h, s.log = pre ++ Event.updateCell t c h :: post →
      h = some t ∧ lastSelected t post = some c) ∧
    s.log.countP (Event.isSelectBy t) =
      s.log.countP (Event.isUpdateBy t) + s.log.countP (Event.isCommitBy t)
        + (if (s.workers t).pc.midIteration = true then 1 else 0) ∧
    s.log.countP (Event.isCommitBy t) ≤ 1 ∧
    ((s.workers t).pc = PC.done →
      s.log.countP (Event.isSelectBy t) =
        s.log.countP (Event.isUpdateBy t) + s.log.countP (Event.isCommitBy t)) := by
  have hC := counted_run cfg score starts sched s t hrun
  have hK := locked_run cfg score starts sched s hrun
  have hS := sourced_run cfg score starts sched s t hrun
  refine ⟨?_, hC.balance, hC.atMost, ?_⟩
  · intro pre post c h hlog
    refine ⟨hK.updates t c h (by rw [hlog]; simp), ?_⟩
    have := hS.updates
    rw [hlog] at this
    exact updatesSource_split t c h post pre this
  · intro hpc
    have := hC.balance
    rw [hpc] at this
    simpa [PC.midIteration] using this

/-- Witness of `updateCell_bookkeeping`: the run `twoMisses`, in which worker 0
makes two turns, each ending with `updateCell`. -/
theorem updateCell_bookkeeping_witness :
    run cfgGeneric twoMisses start0 = some (stateAfter cfgGeneric twoMisses) ∧
    (stateAfter cfgGeneric twoMisses).log.countP (Event.isSelectBy 0) = 2 ∧
    (stateAfter cfgGeneric twoMisses).log.countP (Event.isCommitBy 0) = 0 ∧
    (stateAfter cfgGeneric twoMisses).log.countP (Event.isSelectBy 0) =
      (stateAfter cfgGeneric twoMisses).log.countP (Event.isUpdateBy 0)
        + (stateAfter cfgGeneric twoMisses).log.countP (Event.isCommitBy 0) := by
  have h1 : (run cfgGeneric twoMisses start0).isSome = true := by decide!
  have hrun : run cfgGeneric twoMisses start0 = some (stateAfter cfgGeneric twoMisses) :=
    some_getD_of_isSome _ start0 h1
  exact ⟨hrun, by decide!, by decide!,
    (updateCell_bookkeeping cfgGeneric (fun _ => 1) [0] twoMisses _ 0 hrun).2.2.2 (by decide!)⟩

/-- C10 at the run `lostDecay`: both workers decay the score of cell 0, which is
1, by the factor 1/2; both stores of line 95 are made while nobody owns
`discLock_`, and the score ends at 1/2 where two decays give 1/4: one update is
lost. -/
theorem score_decay_unlocked :
    (run cfgGeneric lostDecay start0).map
        (fun s => (s.disc.score 0, s.log.filter Event.isScoreWrite))
      = some (1 / 2, [Event.scoreWrite 1 0 none, Event.scoreWrite 0 0 none]) ∧
    start0.disc.score 0 * cfgGeneric.failedExpansionScoreFactor
        * cfgGeneric.failedExpansionScoreFactor = 1 / 4 := by
  decide!

end PNearKPIECE1
